import Mathlib

/-!
Verification of the logic-grid subsystem of the puztool repository.

The Lean definitions below are shallow embeddings of the Python sources:

* `src/puztool/logic/base.py` — `Solution`, `Solvable`, `negate`, `all_solns`,
  `solve` (the solve/enumerate protocol over an external solver);
* `src/puztool/logic/cat_prob.py` — `CatProblem` (constraint generation:
  `cons_rowcol`, `cons_sanity`, `cons_grid`, `cons_domains`, `uniques`) and
  `CatSoln` (`rows`, `grid`);
* `src/logic_grid.py` / `src/puztool/logic/b_grid.py` — `CatMan` (literal
  resolution), `Grid` (tri-state relation matrices, `exclude`, `require`,
  `requireOne`, and the jsingler.de export helpers).

The external constraint solver (z3 / Numberjack) is modelled as an oracle
`check : List (BExpr V) → Option (V → PValue)`: given the accumulated
constraint list it either produces a model or reports non-satisfiability.
`Sound check` states the solver capability contract: a returned model makes
every constraint in the set it was checked against evaluate to true.
-/

set_option maxHeartbeats 1000000

namespace Puztool

/-! ### Generic list helpers (itertools.combinations, str.join) -/

/-- `itertools.combinations(l, 2)` in list order. -/
def combos2 {α : Type} : List α → List (α × α)
  | [] => []
  | x :: xs => xs.map (fun y => (x, y)) ++ combos2 xs

/-- `itertools.combinations(l, 3)` in list order. -/
def combos3 {α : Type} : List α → List (α × α × α)
  | [] => []
  | x :: xs => (combos2 xs).map (fun p => (x, p.1, p.2)) ++ combos3 xs

/-- Python `sep.join(l)`. -/
def joinSep (sep : String) : List String → String
  | [] => ""
  | [x] => x
  | x :: y :: xs => x ++ sep ++ joinSep sep (y :: xs)

/-! ### Values and constraint expressions

Solver variables hold either a boolean or an integer (`z3.Bool` / `z3.Int`).
`BExpr` is the fragment of solver expressions that the embedded code builds.
-/

inductive PValue
  | b (x : Bool)
  | i (x : Int)
deriving DecidableEq

inductive BExpr (V : Type)
  /-- a bare boolean variable used as a constraint -/
  | var (v : V)
  | notE (e : BExpr V)
  | andE (a b : BExpr V)
  | orE (a b : BExpr V)
  /-- `z3.Implies(a, b)` -/
  | impliesE (a b : BExpr V)
  /-- `v == <constant>` -/
  | eqLit (v : V) (x : PValue)
  /-- `v == w` -/
  | eqVar (v w : V)
  /-- `v != w` -/
  | neVar (v w : V)
  /-- `v >= x` for an integer variable -/
  | geConst (v : V) (x : Int)
  /-- `v <= x` for an integer variable -/
  | leConst (v : V) (x : Int)
  /-- `z3.PbEq([(v,1) for v in vs], 1)` -/
  | exactlyOne (vs : List V)
  /-- `z3.AtMost(*vs, k)` -/
  | atMostE (vs : List V) (k : Nat)
  /-- `z3.Or(*(v != x for (v, x) in ps))` — the shape of a blocking clause -/
  | orAnyNe (ps : List (V × PValue))

/-- A model assigns every variable a value. -/
abbrev Model (V : Type) := V → PValue

def isTrueV {V : Type} (m : Model V) (v : V) : Bool := m v == PValue.b true

def BExpr.eval {V : Type} (m : Model V) : BExpr V → Bool
  | .var v => isTrueV m v
  | .notE e => !(e.eval m)
  | .andE a b => a.eval m && b.eval m
  | .orE a b => a.eval m || b.eval m
  | .impliesE a b => !(a.eval m) || b.eval m
  | .eqLit v x => m v == x
  | .eqVar v w => m v == m w
  | .neVar v w => m v != m w
  | .geConst v x => match m v with | .i k => decide (x ≤ k) | .b _ => false
  | .leConst v x => match m v with | .i k => decide (k ≤ x) | .b _ => false
  | .exactlyOne vs => vs.countP (isTrueV m) == 1
  | .atMostE vs k => decide (vs.countP (isTrueV m) ≤ k)
  | .orAnyNe ps => ps.any (fun p => m p.1 != p.2)

/-! ### The solve / enumerate protocol (`src/puztool/logic/base.py`) -/

/-- A `Solvable`: a constraint list plus the variable list defining solution
identity (`constraints()` / `uniques()`). -/
structure ProblemL (V : Type) where
  constraints : List (BExpr V)
  uniques : List V

/-- `negate(problem, model)`: a constraint that `model` isn't the solution:
`z3.Or(*[v != model.eval(v) for v in problem.uniques()])`. -/
def negate {V : Type} (problem : ProblemL V) (model : Model V) : BExpr V :=
  .orAnyNe (problem.uniques.map (fun v => (v, model v)))

/-- The external solver as an oracle on accumulated constraint sets.
`none` models `s.check() != z3.sat`. -/
abbrev Oracle (V : Type) := List (BExpr V) → Option (Model V)

/-- The loop of `all_solns`: up to `fuel` times, check; stop cleanly when not
satisfiable; otherwise emit the model and add the blocking clause.  The `Bool`
component is the truncation signal (the `print` warning that fires after the
loop has produced `limit` solutions). -/
def all_solns_loop {V : Type} (check : Oracle V) (problem : ProblemL V) :
    Nat → List (BExpr V) → List (Model V) × Bool
  | 0, _ => ([], true)
  | fuel + 1, cs =>
    match check cs with
    | none => ([], false)
    | some m =>
      let rest := all_solns_loop check problem fuel (cs ++ [negate problem m])
      (m :: rest.1, rest.2)

/-- `all_solns(problem, limit)`: the solver session starts from
`problem.constraints()`. -/
def all_solns {V : Type} (check : Oracle V) (problem : ProblemL V)
    (limit : Nat := 10) : List (Model V) × Bool :=
  all_solns_loop check problem limit problem.constraints

inductive SolveResult (V : Type)
  /-- `raise NoSolution()` -/
  | noSolution
  /-- `raise MultipleSolutions([first, soln])` -/
  | multipleSolutions (m1 m2 : Model V)
  /-- `return soln` -/
  | found (m : Model V)

/-- The consuming loop of `solve`, tracking `first`. -/
def solve_loop {V : Type} (unique : Bool) :
    List (Model V) → Option (Model V) → SolveResult V
  | [], none => .noSolution
  | [], some first => .found first
  | soln :: rest, first =>
    if !unique then .found soln
    else
      match first with
      | some f => .multipleSolutions f soln
      | none => solve_loop unique rest (some soln)

/-- `solve(problem, unique)`: iterates `all_solns(problem, 2)`. -/
def solve {V : Type} (check : Oracle V) (problem : ProblemL V)
    (unique : Bool := true) : SolveResult V :=
  solve_loop unique (all_solns check problem 2).1 none

/-- Solver capability contract: a model returned for a constraint set makes
every constraint in that set true. -/
def Sound {V : Type} (check : Oracle V) : Prop :=
  ∀ cs m, check cs = some m → ∀ c ∈ cs, c.eval m = true

/-! ### Properties of the enumeration loop -/

theorem all_solns_loop_length_le {V : Type} (check : Oracle V)
    (p : ProblemL V) : ∀ (fuel : Nat) (cs : List (BExpr V)),
    (all_solns_loop check p fuel cs).1.length ≤ fuel := by
  intro fuel
  induction fuel with
  | zero => intro cs; simp [all_solns_loop]
  | succ n ih =>
    intro cs
    simp only [all_solns_loop]
    cases check cs with
    | none => simp
    | some m => simpa using ih (cs ++ [negate p m])

theorem all_solns_loop_warn_iff {V : Type} (check : Oracle V)
    (p : ProblemL V) : ∀ (fuel : Nat) (cs : List (BExpr V)),
    (all_solns_loop check p fuel cs).2 = true ↔
      (all_solns_loop check p fuel cs).1.length = fuel := by
  intro fuel
  induction fuel with
  | zero => intro cs; simp [all_solns_loop]
  | succ n ih =>
    intro cs
    simp only [all_solns_loop]
    cases check cs with
    | none => simp
    | some m => simpa using ih (cs ++ [negate p m])

theorem all_solns_loop_checks {V : Type} (check : Oracle V)
    (p : ProblemL V) : ∀ (fuel : Nat) (cs : List (BExpr V))
    (i : Nat), i < (all_solns_loop check p fuel cs).1.length →
    check (cs ++ (((all_solns_loop check p fuel cs).1.take i).map (negate p)))
      = (all_solns_loop check p fuel cs).1[i]? := by
  intro fuel
  induction fuel with
  | zero => intro cs i h; simp [all_solns_loop] at h
  | succ n ih =>
    intro cs i h
    simp only [all_solns_loop] at h ⊢
    cases hc : check cs with
    | none => rw [hc] at h; simp at h
    | some m =>
      rw [hc] at h
      cases i with
      | zero => simpa using hc
      | succ i' =>
        simp only [List.take_succ_cons, List.map_cons, List.getElem?_cons_succ]
        simp only [List.length_cons, Nat.succ_lt_succ_iff] at h
        have := ih (cs ++ [negate p m]) i' (by simpa using h)
        simpa [List.append_assoc] using this

theorem all_solns_loop_final {V : Type} (check : Oracle V)
    (p : ProblemL V) : ∀ (fuel : Nat) (cs : List (BExpr V)),
    (all_solns_loop check p fuel cs).1.length < fuel →
    check (cs ++ ((all_solns_loop check p fuel cs).1.map (negate p))) = none := by
  intro fuel
  induction fuel with
  | zero => intro cs h; omega
  | succ n ih =>
    intro cs h
    simp only [all_solns_loop] at h ⊢
    cases hc : check cs with
    | none =>
      rw [hc] at h
      simpa using hc
    | some m =>
      rw [hc] at h
      simp only [List.length_cons] at h
      have := ih (cs ++ [negate p m]) (by omega)
      simpa [List.append_assoc] using this

/-- Every enumerated model was returned by a check over a constraint set
extending the problem's constraints. -/
theorem all_solns_loop_mem {V : Type} (check : Oracle V)
    (p : ProblemL V) : ∀ (fuel : Nat) (cs : List (BExpr V)) (m : Model V),
    m ∈ (all_solns_loop check p fuel cs).1 →
    ∃ extra, check (cs ++ extra) = some m := by
  intro fuel
  induction fuel with
  | zero => intro cs m h; simp [all_solns_loop] at h
  | succ n ih =>
    intro cs m h
    simp only [all_solns_loop] at h
    cases hc : check cs with
    | none => rw [hc] at h; simp at h
    | some m0 =>
      rw [hc] at h
      simp only [List.mem_cons] at h
      rcases h with rfl | h
      · exact ⟨[], by simpa using hc⟩
      · obtain ⟨extra, he⟩ := ih (cs ++ [negate p m0]) m h
        exact ⟨[negate p m0] ++ extra, by simpa [List.append_assoc] using he⟩

/-- A model enumerated from a problem under a sound oracle satisfies every
constraint of the problem. -/
theorem enumerated_model_sat {V : Type} {check : Oracle V}
    (hs : Sound check) {p : ProblemL V} {limit : Nat} {m : Model V}
    (hm : m ∈ (all_solns check p limit).1) :
    ∀ c ∈ p.constraints, c.eval m = true := by
  obtain ⟨extra, he⟩ := all_solns_loop_mem check p limit p.constraints m hm
  intro c hc
  exact hs _ m he c (List.mem_append_left _ hc)

/-- Claim C1: with uniqueness required, `solve` raises `NoSolution` when the
first check is unsatisfiable; when a first model is found and the re-check
with the blocking clause against it is satisfiable again it raises
`MultipleSolutions` carrying both models; otherwise it returns the single
model. -/
theorem solve_unique_protocol {V : Type} (check : Oracle V) (p : ProblemL V) :
    (check p.constraints = none → solve check p true = .noSolution)
  ∧ (∀ m1 m2, check p.constraints = some m1 →
      check (p.constraints ++ [negate p m1]) = some m2 →
      solve check p true = .multipleSolutions m1 m2)
  ∧ (∀ m1, check p.constraints = some m1 →
      check (p.constraints ++ [negate p m1]) = none →
      solve check p true = .found m1) := by
  refine ⟨fun h => ?_, fun m1 m2 h1 h2 => ?_, fun m1 h1 h2 => ?_⟩
  · simp only [solve, all_solns, all_solns_loop, h]
    rfl
  · simp only [solve, all_solns, all_solns_loop, h1, h2]
    rfl
  · simp only [solve, all_solns, all_solns_loop, h1, h2]
    rfl

theorem solve_unique_protocol_witness :
    solve (fun cs : List (BExpr Nat) =>
        if cs.length = 0 then some (fun _ : Nat => PValue.b true) else none)
      (⟨[], [(0 : Nat)]⟩ : ProblemL Nat) true
      = .found (fun _ : Nat => PValue.b true) :=
  (solve_unique_protocol
      (fun cs : List (BExpr Nat) =>
        if cs.length = 0 then some (fun _ : Nat => PValue.b true) else none)
      (⟨[], [(0 : Nat)]⟩ : ProblemL Nat)).2.2
    (fun _ : Nat => PValue.b true) rfl rfl

/-- Claim C2: `all_solns(problem, limit)` yields at most `limit` models; the
truncation signal fires exactly when `limit` models were yielded; the i-th
check is performed against the problem's constraints extended by one blocking
clause per previously yielded model; the enumeration stops cleanly (no
truncation warning) once a check is unsatisfiable; and a blocking clause holds
in a model exactly when some `uniques()` variable differs from its value in
the yielded model. -/
theorem all_solns_enumeration {V : Type} (check : Oracle V) (p : ProblemL V)
    (limit : Nat) :
    ((all_solns check p limit).1.length ≤ limit)
  ∧ ((all_solns check p limit).2 = true ↔
      (all_solns check p limit).1.length = limit)
  ∧ (∀ (i : Nat), i < (all_solns check p limit).1.length →
      check (p.constraints ++
          (((all_solns check p limit).1.take i).map (negate p)))
        = (all_solns check p limit).1[i]?)
  ∧ ((all_solns check p limit).1.length < limit →
      check (p.constraints ++ ((all_solns check p limit).1.map (negate p)))
        = none)
  ∧ (∀ (m α : Model V),
      (negate p m).eval α = true ↔ ∃ v ∈ p.uniques, α v ≠ m v) := by
  refine ⟨all_solns_loop_length_le check p limit p.constraints,
    all_solns_loop_warn_iff check p limit p.constraints,
    all_solns_loop_checks check p limit p.constraints,
    all_solns_loop_final check p limit p.constraints,
    fun m α => ?_⟩
  simp [negate, BExpr.eval, List.any_eq_true, bne_iff_ne]

theorem all_solns_enumeration_witness :
    (fun cs : List (BExpr Nat) =>
        if cs.length ≤ 1 then some (fun _ : Nat => PValue.b true) else none)
      ((⟨[BExpr.var 0], [(0 : Nat)]⟩ : ProblemL Nat).constraints ++
        ((all_solns
            (fun cs : List (BExpr Nat) =>
              if cs.length ≤ 1 then some (fun _ : Nat => PValue.b true) else none)
            (⟨[BExpr.var 0], [(0 : Nat)]⟩ : ProblemL Nat) 2).1.map
          (negate (⟨[BExpr.var 0], [(0 : Nat)]⟩ : ProblemL Nat)))) = none :=
  (all_solns_enumeration
      (fun cs : List (BExpr Nat) =>
        if cs.length ≤ 1 then some (fun _ : Nat => PValue.b true) else none)
      (⟨[BExpr.var 0], [(0 : Nat)]⟩ : ProblemL Nat) 2).2.2.2.1
    (by simp [all_solns, all_solns_loop, negate])

/-! ### CatMan: category/value registry and literal resolution
(`src/logic_grid.py` and `src/puztool/logic/b_grid.py`, class `CatMan`) -/

structure ValInfo where
  cat : String
  val : String
  idx : Nat
deriving DecidableEq

/-- `'{}:{}'.format(cat, val)` -/
def ValInfo.fullname (v : ValInfo) : String := v.cat ++ ":" ++ v.val

/-- A `lookup` table entry: a single `ValInfo`, or a `_Conflict` holding every
`ValInfo` registered under an ambiguous bare literal, in insertion order. -/
inductive Entry
  | info (v : ValInfo)
  | conflict (vs : List ValInfo)
deriving DecidableEq

/-- `_Conflict(old, info)`: conflicts flatten, keeping insertion order. -/
def mergeEntry : Option Entry → ValInfo → Entry
  | none, i => .info i
  | some (.info v), i => .conflict [v, i]
  | some (.conflict vs), i => .conflict (vs ++ [i])

abbrev Lookup := String → Option Entry

/-- One iteration of the `CatMan.__init__` loop body: store under the full
name (overwriting), then merge under the bare literal. -/
def insertVal (lk : Lookup) (i : ValInfo) : Lookup :=
  let lk1 : Lookup := fun k => if k = i.fullname then some (.info i) else lk k
  fun k => if k = i.val then some (mergeEntry (lk1 i.val) i) else lk1 k

/-- All `ValInfo`s a category map produces, in registration order
(category order, then index order). -/
def allInfos (cats : List (String × List String)) : List ValInfo :=
  cats.bind (fun p => p.2.enum.map (fun q => ⟨p.1, q.2, q.1⟩))

/-- The `lookup` dict built by `CatMan.__init__`. -/
def buildLookup (cats : List (String × List String)) : Lookup :=
  (allInfos cats).foldl insertVal (fun _ => none)

/-- The exceptions the embedded code raises. -/
inductive LGErr
  | keyError (k : String)
  | ambiguityError (msg : String)
  | valueError (msg : String)
  | indexError
deriving DecidableEq

/-- `"{} could be any of: {}".format(value, ', '.join(str(t) for t in terms))` -/
def ambMsg (value : String) (vs : List ValInfo) : String :=
  value ++ " could be any of: " ++ joinSep ", " (vs.map ValInfo.fullname)

/-- `CatMan.get_info` on a string input. -/
def get_info_str (lk : Lookup) (value : String) (cat : Option String) :
    Except LGErr ValInfo :=
  match lk value with
  | none => .error (.keyError value)
  | some (.info v) => .ok v
  | some (.conflict vs) =>
    match cat with
    | none => .error (.ambiguityError (ambMsg value vs))
    | some c =>
      let value2 := c ++ ":" ++ value
      match lk value2 with
      | none => .error (.keyError value2)
      | some (.info v) => .ok v
      | some (.conflict vs2) => .error (.ambiguityError (ambMsg value2 vs2))

/-- A value passed to `get_info`: a bare/qualified name or a `ValInfo`. -/
inductive Lit
  | str (s : String)
  | info (v : ValInfo)
deriving DecidableEq

/-- `CatMan.get_info`: a `ValInfo` is returned as-is. -/
def get_info (lk : Lookup) (l : Lit) (cat : Option String := none) :
    Except LGErr ValInfo :=
  match l with
  | .info v => .ok v
  | .str s => get_info_str lk s cat

/-! Characterisation of the built lookup table, key by key. -/

theorem fullname_ne_val (i : ValInfo) : i.fullname ≠ i.val := by
  intro h
  have h1 : i.fullname.length = i.val.length := by rw [h]
  have h2 : i.fullname.length = i.cat.length + 1 + i.val.length := by
    rw [ValInfo.fullname, String.length_append, String.length_append]
    rfl
  omega

/-- The effect of one `insertVal` on a single key. -/
def applyKey (k : String) (e : Option Entry) (i : ValInfo) : Option Entry :=
  if k = i.val then some (mergeEntry e i)
  else if k = i.fullname then some (.info i)
  else e

theorem insertVal_apply (lk : Lookup) (i : ValInfo) (k : String) :
    insertVal lk i k = applyKey k (lk k) i := by
  unfold insertVal applyKey
  by_cases hv : k = i.val
  · subst hv
    simp [(fullname_ne_val i).symm, fullname_ne_val i]
  · by_cases hf : k = i.fullname <;> simp [hv, hf, fullname_ne_val i]

theorem foldl_insertVal_key (k : String) :
    ∀ (infos : List ValInfo) (lk : Lookup),
    (infos.foldl insertVal lk) k = infos.foldl (applyKey k) (lk k) := by
  intro infos
  induction infos with
  | nil => intro lk; rfl
  | cons i rest ih =>
    intro lk
    rw [List.foldl_cons, List.foldl_cons, ih, insertVal_apply]

/-- What a run of bare-literal merges produces from an empty slot. -/
def entryOfList : List ValInfo → Option Entry
  | [] => none
  | [v] => some (.info v)
  | v1 :: v2 :: rest => some (.conflict (v1 :: v2 :: rest))

theorem mergeFold_conflict :
    ∀ (rest acc : List ValInfo),
    rest.foldl (fun e i => some (mergeEntry e i)) (some (Entry.conflict acc))
      = some (Entry.conflict (acc ++ rest)) := by
  intro rest
  induction rest with
  | nil => intro acc; simp
  | cons i rest ih =>
    intro acc
    rw [List.foldl_cons]
    show rest.foldl _ (some (Entry.conflict (acc ++ [i]))) = _
    rw [ih]
    simp

theorem mergeFold_none :
    ∀ (vs : List ValInfo),
    vs.foldl (fun e i => some (mergeEntry e i)) none = entryOfList vs := by
  intro vs
  cases vs with
  | nil => rfl
  | cons v rest =>
    cases rest with
    | nil => rfl
    | cons w rest' =>
      rw [List.foldl_cons, List.foldl_cons]
      show rest'.foldl _ (some (Entry.conflict [v, w])) = _
      rw [mergeFold_conflict]
      rfl

theorem colon_mem_fullname (i : ValInfo) : ':' ∈ i.fullname.data := by
  simp [ValInfo.fullname, String.data_append]

/-- A colon-free key is only affected by bare-literal merges. -/
theorem foldl_applyKey_bare (k : String) (hk : ':' ∉ k.data) :
    ∀ (infos : List ValInfo) (e : Option Entry),
    infos.foldl (applyKey k) e
      = (infos.filter (fun i => k = i.val)).foldl
          (fun e i => some (mergeEntry e i)) e := by
  intro infos
  induction infos with
  | nil => intro e; rfl
  | cons i rest ih =>
    intro e
    have hkf : k ≠ i.fullname := by
      intro h; exact hk (h ▸ colon_mem_fullname i)
    by_cases hv : k = i.val
    · have he : applyKey k e i = some (mergeEntry e i) := by simp [applyKey, hv]
      rw [List.foldl_cons, ih, he,
        List.filter_cons_of_pos (by simpa using hv), List.foldl_cons]
    · have he : applyKey k e i = e := by simp [applyKey, hv, hkf]
      rw [List.foldl_cons, ih, he,
        List.filter_cons_of_neg (by simpa using hv)]

/-- On the empty initial slot, a colon-free key collects every registration
of that bare literal, in order. -/
theorem buildLookup_bare (cats : List (String × List String)) (k : String)
    (hk : ':' ∉ k.data) :
    buildLookup cats k
      = entryOfList ((allInfos cats).filter (fun i => k = i.val)) := by
  rw [buildLookup, foldl_insertVal_key, foldl_applyKey_bare k hk,
    mergeFold_none]

/-- A key that is no bare literal is only affected by full-name stores, and
holds the last one. -/
theorem foldl_applyKey_fullkey (k : String) :
    ∀ (infos : List ValInfo) (e : Option Entry),
    (∀ i ∈ infos, k ≠ i.val) →
    infos.foldl (applyKey k) e
      = (match infos.reverse.find? (fun i => k = i.fullname) with
         | some j => some (.info j)
         | none => e) := by
  intro infos
  induction infos with
  | nil => intro e _; rfl
  | cons i rest ih =>
    intro e hvals
    rw [List.foldl_cons, ih _ (fun j hj => hvals j (List.mem_cons_of_mem _ hj))]
    rw [List.reverse_cons, List.find?_append]
    cases hfind : rest.reverse.find? (fun i => k = i.fullname) with
    | some j => simp [hfind]
    | none =>
      simp only [hfind, Option.none_orElse]
      have hval : ¬ (k = i.val) := hvals i (List.mem_cons_self i rest)
      by_cases hf : k = i.fullname
      · simp [List.find?_cons, hf, applyKey, hval, fullname_ne_val i]
      · simp [List.find?_cons, hf, applyKey, hval]

theorem buildLookup_fullkey (cats : List (String × List String)) (k : String)
    (hvals : ∀ i ∈ allInfos cats, k ≠ i.val) :
    buildLookup cats k
      = (match (allInfos cats).reverse.find? (fun i => k = i.fullname) with
         | some j => some (.info j)
         | none => none) := by
  rw [buildLookup, foldl_insertVal_key, foldl_applyKey_fullkey k _ _ hvals]

/-- Splitting `c ++ ":" ++ v` is unambiguous when `c` and the other side's
category are colon-free. -/
theorem colon_append_inj :
    ∀ {a a' b b' : List Char}, ':' ∉ a → ':' ∉ a' →
    a ++ ':' :: b = a' ++ ':' :: b' → a = a' ∧ b = b' := by
  intro a
  induction a with
  | nil =>
    intro a' b b' _ ha' h
    cases a' with
    | nil => simpa using h
    | cons c a'' =>
      simp only [List.nil_append, List.cons_append, List.cons.injEq] at h
      obtain ⟨h1, -⟩ := h
      subst h1
      exact absurd (List.mem_cons_self _ _) ha'
  | cons c a'' ih =>
    intro a' b b' ha ha' h
    cases a' with
    | nil =>
      simp only [List.cons_append, List.nil_append, List.cons.injEq] at h
      obtain ⟨h1, -⟩ := h
      subst h1
      exact absurd (List.mem_cons_self _ _) ha
    | cons c' a''' =>
      simp only [List.cons_append, List.cons.injEq] at h
      obtain ⟨rfl, h2⟩ := h
      have h3 := ih (fun hm => ha (List.mem_cons_of_mem _ hm))
        (fun hm => ha' (List.mem_cons_of_mem _ hm)) h2
      exact ⟨by rw [h3.1], h3.2⟩

theorem string_fullname_inj {c v c' v' : String}
    (hc : ':' ∉ c.data) (hc' : ':' ∉ c'.data) :
    c ++ ":" ++ v = c' ++ ":" ++ v' → c = c' ∧ v = v' := by
  intro h
  have hd : c.data ++ ':' :: v.data = c'.data ++ ':' :: v'.data := by
    have := congrArg String.data h
    simpa [String.data_append] using this
  obtain ⟨h1, h2⟩ := colon_append_inj hc hc' hd
  refine ⟨?_, ?_⟩
  · cases c; cases c'; exact congrArg String.mk h1
  · cases v; cases v'; exact congrArg String.mk h2

theorem colon_mem_qualified (c v : String) : ':' ∈ (c ++ ":" ++ v).data := by
  simp [String.data_append]

theorem enumFrom_filter_of_not_mem {x : String} :
    ∀ (l : List String) (n : Nat), x ∉ l →
    (l.enumFrom n).filter (fun q => decide (x = q.2)) = [] := by
  intro l
  induction l with
  | nil => intro n _; rfl
  | cons a l ih =>
    intro n h
    rw [List.enumFrom_cons,
      List.filter_cons_of_neg (by simp; exact fun he => h (he ▸ List.mem_cons_self a l)),
      ih (n + 1) (fun hm => h (List.mem_cons_of_mem _ hm))]

theorem enumFrom_filter_count_one {x : String} :
    ∀ (l : List String) (n : Nat), l.count x = 1 →
    (l.enumFrom n).filter (fun q => decide (x = q.2))
      = [(n + l.indexOf x, x)] := by
  intro l
  induction l with
  | nil => intro n h; simp at h
  | cons a l ih =>
    intro n h
    by_cases hax : x = a
    · subst hax
      rw [List.count_cons_self] at h
      have hnot : x ∉ l := List.count_eq_zero.mp (by omega)
      rw [List.enumFrom_cons, List.filter_cons_of_pos (by simp),
        enumFrom_filter_of_not_mem l (n + 1) hnot, List.indexOf_cons_self]
      simp
    · rw [List.count_cons_of_ne hax] at h
      rw [List.enumFrom_cons, List.filter_cons_of_neg (by simp [hax]),
        ih (n + 1) h, List.indexOf_cons_ne l (fun he => hax he.symm)]
      have harith : n + 1 + l.indexOf x = n + (l.indexOf x + 1) := by omega
      rw [harith]

/-- For one category's registrations, filtering on a bare literal that occurs
exactly once leaves exactly its `ValInfo`. -/
theorem catInfos_filter_bare (c : String) (l : List String) (x : String)
    (h : l.count x = 1) :
    (l.enum.map (fun q => (⟨c, q.2, q.1⟩ : ValInfo))).filter
        (fun i => decide (x = i.val))
      = [⟨c, x, l.indexOf x⟩] := by
  rw [List.filter_map]
  have hcomp : ((fun i => decide (x = ValInfo.val i)) ∘
      (fun q : Nat × String => (⟨c, q.2, q.1⟩ : ValInfo)))
      = fun q : Nat × String => decide (x = q.2) := rfl
  rw [hcomp, show l.enum = l.enumFrom 0 from rfl,
    enumFrom_filter_count_one l 0 h]
  simp

/-- `find?` returns the sole element satisfying the predicate. -/
theorem find?_of_unique {α : Type} (p : α → Bool) :
    ∀ (l : List α) (a : α), a ∈ l → p a = true →
    (∀ b ∈ l, p b = true → b = a) → l.find? p = some a := by
  intro l
  induction l with
  | nil => intro a h; simp at h
  | cons c l ih =>
    intro a ha hp huniq
    by_cases hc : p c = true
    · have he : c = a := huniq c (List.mem_cons_self _ _) hc
      subst he
      exact List.find?_cons_of_pos l hc
    · rw [List.find?_cons_of_neg l hc]
      rcases List.mem_cons.mp ha with rfl | ha'
      · exact absurd hp hc
      · exact ih a ha' hp
          (fun b hb hpb => huniq b (List.mem_cons_of_mem _ hb) hpb)

/-- Claim C7: in a registry over two distinct categories sharing the literal
`x` (present once in each, names and literals colon-free), resolving `x`
without a hint fails with an `AmbiguityError` whose message lists both
candidates' qualified names, and resolving `x` with hint category `c1`
returns `c1`'s value for `x`. -/
theorem catman_ambiguity_resolution
    (c1 c2 x : String) (l1 l2 : List String)
    (hne : c1 ≠ c2)
    (hc1 : ':' ∉ c1.data) (hc2 : ':' ∉ c2.data)
    (hl1 : ∀ v ∈ l1, ':' ∉ v.data) (hl2 : ∀ v ∈ l2, ':' ∉ v.data)
    (hx1 : l1.count x = 1) (hx2 : l2.count x = 1) :
    get_info_str (buildLookup [(c1, l1), (c2, l2)]) x none
      = .error (.ambiguityError
          (x ++ " could be any of: " ++ (c1 ++ ":" ++ x) ++ ", " ++ (c2 ++ ":" ++ x)))
  ∧ get_info_str (buildLookup [(c1, l1), (c2, l2)]) x (some c1)
      = .ok ⟨c1, x, l1.indexOf x⟩ := by
  have hxl1 : x ∈ l1 := by
    by_contra hxm
    rw [List.count_eq_zero.mpr hxm] at hx1
    omega
  have hx : ':' ∉ x.data := hl1 x hxl1
  have e : allInfos [(c1, l1), (c2, l2)]
      = l1.enum.map (fun q => (⟨c1, q.2, q.1⟩ : ValInfo))
        ++ l2.enum.map (fun q => (⟨c2, q.2, q.1⟩ : ValInfo)) := by
    simp [allInfos]
  have hfilter : (allInfos [(c1, l1), (c2, l2)]).filter
      (fun i => decide (x = i.val))
      = [⟨c1, x, l1.indexOf x⟩, ⟨c2, x, l2.indexOf x⟩] := by
    rw [e, List.filter_append, catInfos_filter_bare c1 l1 x hx1,
      catInfos_filter_bare c2 l2 x hx2]
    rfl
  have hlk : buildLookup [(c1, l1), (c2, l2)] x
      = some (Entry.conflict [⟨c1, x, l1.indexOf x⟩, ⟨c2, x, l2.indexOf x⟩]) := by
    rw [buildLookup_bare _ x hx, hfilter]
    rfl
  have hvals : ∀ i ∈ allInfos [(c1, l1), (c2, l2)], (c1 ++ ":" ++ x) ≠ i.val := by
    intro i hi heq
    rw [e] at hi
    rcases List.mem_append.mp hi with h | h
    · obtain ⟨q, hq, rfl⟩ := List.mem_map.mp h
      have hv : q.2 ∈ l1 := by
        have := List.mem_enum_iff_get?.mp hq
        exact List.get?_mem this
      have heq' : (c1 ++ ":" ++ x) = q.2 := heq
      exact hl1 q.2 hv (by rw [← heq']; exact colon_mem_qualified c1 x)
    · obtain ⟨q, hq, rfl⟩ := List.mem_map.mp h
      have hv : q.2 ∈ l2 := by
        have := List.mem_enum_iff_get?.mp hq
        exact List.get?_mem this
      have heq' : (c1 ++ ":" ++ x) = q.2 := heq
      exact hl2 q.2 hv (by rw [← heq']; exact colon_mem_qualified c1 x)
  have hkey : buildLookup [(c1, l1), (c2, l2)] (c1 ++ ":" ++ x)
      = some (Entry.info ⟨c1, x, l1.indexOf x⟩) := by
    rw [buildLookup_fullkey _ _ hvals, e, List.reverse_append, List.find?_append]
    have h2none : (l2.enum.map (fun q => (⟨c2, q.2, q.1⟩ : ValInfo))).reverse.find?
        (fun i => decide ((c1 ++ ":" ++ x) = i.fullname)) = none := by
      rw [List.find?_eq_none]
      intro i hi hp
      obtain ⟨q, hq, rfl⟩ := List.mem_map.mp (List.mem_reverse.mp hi)
      have heq := of_decide_eq_true hp
      exact hne (string_fullname_inj hc1 hc2 heq).1
    rw [h2none]
    have hA1 : (l1.enum.map (fun q => (⟨c1, q.2, q.1⟩ : ValInfo))).reverse.find?
        (fun i => decide ((c1 ++ ":" ++ x) = i.fullname))
        = some ⟨c1, x, l1.indexOf x⟩ := by
      apply find?_of_unique
      · rw [List.mem_reverse]
        have : (⟨c1, x, l1.indexOf x⟩ : ValInfo)
            ∈ (l1.enum.map (fun q => (⟨c1, q.2, q.1⟩ : ValInfo))).filter
              (fun i => decide (x = i.val)) := by
          rw [catInfos_filter_bare c1 l1 x hx1]
          exact List.mem_singleton.mpr rfl
        exact List.mem_of_mem_filter this
      · exact decide_eq_true rfl
      · intro b hb hpb
        obtain ⟨q, hq, rfl⟩ := List.mem_map.mp (List.mem_reverse.mp hb)
        have heq := of_decide_eq_true hpb
        have hqx : q.2 = x := (string_fullname_inj hc1 hc1 heq).2.symm
        have : (⟨c1, q.2, q.1⟩ : ValInfo)
            ∈ (l1.enum.map (fun q => (⟨c1, q.2, q.1⟩ : ValInfo))).filter
              (fun i => decide (x = i.val)) := by
          apply List.mem_filter.mpr
          exact ⟨List.mem_map.mpr ⟨q, hq, rfl⟩, by simp [hqx]⟩
        rw [catInfos_filter_bare c1 l1 x hx1] at this
        exact List.mem_singleton.mp this
    rw [hA1]
    rfl
  constructor
  · unfold get_info_str
    rw [hlk]
    simp [ambMsg, joinSep, ValInfo.fullname, String.append_assoc]
  · unfold get_info_str
    rw [hlk]
    simp only
    rw [hkey]

theorem catman_ambiguity_resolution_witness :
    get_info_str (buildLookup [("color", ["x", "red"]), ("size", ["big", "x"])])
        "x" none
      = .error (.ambiguityError "x could be any of: color:x, size:x")
  ∧ get_info_str (buildLookup [("color", ["x", "red"]), ("size", ["big", "x"])])
        "x" (some "color")
      = .ok ⟨"color", "x", 0⟩ := by
  have h := catman_ambiguity_resolution "color" "size" "x" ["x", "red"]
    ["big", "x"] (by decide) (by decide) (by decide)
    (by intro v hv; fin_cases hv <;> decide)
    (by intro v hv; fin_cases hv <;> decide)
    (by decide) (by decide)
  obtain ⟨h1, h2⟩ := h
  refine ⟨?_, ?_⟩
  · rw [h1]; rfl
  · rw [h2]; rfl

/-! ### Grid: tri-state relation matrices with mutators
(`src/logic_grid.py`, class `Grid`) -/

/-- The state of a `Grid`: the category map and the backing matrices.
`grids[f1][f2]` and `grids[f2][f1]` are two views of one numpy array
(`g` and `g.T`), modelled by routing every access through the canonical
pair order (first category in category order first). -/
structure GridL where
  cats : List (String × List String)
  cells : String → String → Nat → Nat → Option Bool

def GridL.catNames (g : GridL) : List String := g.cats.map Prod.fst

def GridL.catIdx (g : GridL) (c : String) : Nat := g.catNames.indexOf c

/-- `num_items`: the length of the first category's domain. -/
def GridL.numItems (g : GridL) : Nat :=
  match g.cats with
  | [] => 0
  | p :: _ => p.2.length

def GridL.lookup (g : GridL) : Lookup := buildLookup g.cats

/-- A fresh grid: every cell of every matrix is `None` (unknown). -/
def GridL.init (cats : List (String × List String)) : GridL :=
  ⟨cats, fun _ _ _ _ => none⟩

/-- `self.grids[A][B][i, j]` (the transposed view when `(B, A)` is the stored
pair). -/
def gridRead (g : GridL) (A B : String) (i j : Nat) : Option Bool :=
  if g.catIdx A < g.catIdx B then g.cells A B i j else g.cells B A j i

/-- `self.grids[A][B][i, j] = v`, writing through the shared backing matrix. -/
def gridWrite (g : GridL) (A B : String) (i j : Nat) (v : Option Bool) :
    GridL :=
  { g with cells := fun A' B' i' j' =>
      if (A', B', i', j')
          = (if g.catIdx A < g.catIdx B then (A, B, i, j) else (B, A, j, i))
      then v else g.cells A' B' i' j' }

theorem gridWrite_cats (g : GridL) (A B : String) (i j : Nat)
    (v : Option Bool) : (gridWrite g A B i j v).cats = g.cats := rfl

theorem gridWrite_catIdx (g : GridL) (A B : String) (i j : Nat)
    (v : Option Bool) (c : String) :
    (gridWrite g A B i j v).catIdx c = g.catIdx c := rfl

theorem gridWrite_numItems (g : GridL) (A B : String) (i j : Nat)
    (v : Option Bool) : (gridWrite g A B i j v).numItems = g.numItems := rfl

/-- Reading back through the same directional view after a write to the same
matrix: the written cell holds the new value, all others are untouched. -/
theorem gridRead_gridWrite_pair (g : GridL) (A B : String)
    (i j i' j' : Nat) (v : Option Bool) :
    gridRead (gridWrite g A B i j v) A B i' j'
      = if i' = i ∧ j' = j then v else gridRead g A B i' j' := by
  simp only [gridRead, gridWrite, GridL.catIdx, GridL.catNames]
  by_cases h : List.indexOf A (List.map Prod.fst g.cats)
      < List.indexOf B (List.map Prod.fst g.cats)
  · simp only [if_pos h, Prod.mk.injEq, eq_self_iff_true, true_and]
  · simp only [if_neg h, Prod.mk.injEq, eq_self_iff_true, true_and]
    by_cases hij : i' = i ∧ j' = j
    · obtain ⟨rfl, rfl⟩ := hij
      simp
    · rw [if_neg hij, if_neg (fun hcon => hij ⟨hcon.2, hcon.1⟩)]

/-- Two directional reads of one matrix always agree, for distinct registered
categories. -/
theorem gridRead_symm (g : GridL) (A B : String) (i j : Nat)
    (hA : A ∈ g.catNames) (hB : B ∈ g.catNames)
    (hAB : A ≠ B) :
    gridRead g A B i j = gridRead g B A j i := by
  have hne : g.catIdx A ≠ g.catIdx B :=
    fun h => hAB ((List.indexOf_inj hA hB).mp h)
  unfold gridRead
  rcases Nat.lt_trichotomy (g.catIdx A) (g.catIdx B) with h | h | h
  · rw [if_pos h, if_neg (by omega)]
  · exact absurd h hne
  · rw [if_neg (by omega), if_pos h]

/-- Resolve a list of values left to right (the `map`/list comprehension of
`get_info` calls, consumed before any cell is written). -/
def resolveAll (lk : Lookup) : List Lit → Except LGErr (List ValInfo)
  | [] => .ok []
  | l :: rest => do
    let i ← get_info lk l
    let is ← resolveAll lk rest
    pure (i :: is)

theorem resolveAll_infos (lk : Lookup) :
    ∀ (l : List ValInfo), resolveAll lk (l.map Lit.info) = .ok l := by
  intro l
  induction l with
  | nil => rfl
  | cons v l ih =>
    simp only [List.map_cons, resolveAll, get_info, ih]
    rfl

/-- `Grid.exclude(*vals)`: every cross-category pair of resolved values is
set to `False`; same-category pairs are skipped. -/
def exclude (g : GridL) (vals : List Lit) : GridL × Option LGErr :=
  match resolveAll g.lookup vals with
  | .error e => (g, some e)
  | .ok infos =>
    ((combos2 infos).foldl
      (fun g p =>
        if p.1.cat = p.2.cat then g
        else gridWrite g p.1.cat p.2.cat p.1.idx p.2.idx (some false)) g,
     none)

/-- The pair loop of `Grid.require`: `True` cells are written until a
same-category pair raises, leaving earlier writes in place. -/
def require_loop (g : GridL) :
    List (ValInfo × ValInfo) → GridL × Option LGErr
  | [] => (g, none)
  | p :: rest =>
    if p.1.cat = p.2.cat then
      (g, some (.valueError
        ("Cannot require both " ++ p.1.fullname ++ " and " ++ p.2.fullname)))
    else
      require_loop (gridWrite g p.1.cat p.2.cat p.1.idx p.2.idx (some true))
        rest

/-- `Grid.require(*vals)`. -/
def require (g : GridL) (vals : List Lit) : GridL × Option LGErr :=
  match resolveAll g.lookup vals with
  | .error e => (g, some e)
  | .ok infos => require_loop g (combos2 infos)

/-- Python `set(...)` over the option categories, as an insertion-ordered
distinct list (only its size and sole member matter). -/
def distinctList (l : List String) : List String :=
  l.foldl (fun acc c => if c ∈ acc then acc else acc ++ [c]) []

/-- `old[i2.idx] or None`: a truthy prior value (`True`) survives; `False`
and `None` both become `None`. -/
def orNone (v : Option Bool) : Option Bool :=
  if v = some true then some true else none

/-- `Grid.requireOne(first, options)`: saves the anchor's row of the option
category's matrix, overwrites the whole row with `False`, then rewrites each
option cell with `old or None`. -/
def requireOne (g : GridL) (first : Lit) (options : List Lit) :
    GridL × Option LGErr :=
  match get_info g.lookup first with
  | .error e => (g, some e)
  | .ok i1 =>
    match resolveAll g.lookup options with
    | .error e => (g, some e)
    | .ok opts =>
      let cs := distinctList (opts.map ValInfo.cat)
      if cs.length > 1 then
        (g, some (.valueError
          "requireOne options must be in a single category."))
      else
        match cs with
        | [] => (g, some .indexError)
        | cat :: _ =>
          let n := g.numItems
          let old := (List.range n).map
            (fun j => gridRead g i1.cat cat i1.idx j)
          let g1 := (List.range n).foldl
            (fun g j => gridWrite g i1.cat cat i1.idx j (some false)) g
          let g2 := opts.foldl
            (fun g i2 => gridWrite g i1.cat cat i1.idx i2.idx
              (orNone (old.getD i2.idx none))) g1
          (g2, none)

/-- One clue-encoding mutator call, as applied to the grid object (the state
survives even when the call raises). -/
inductive GOp
  | excludeOp (vals : List Lit)
  | requireOp (vals : List Lit)
  | requireOneOp (first : Lit) (options : List Lit)

def applyOp (g : GridL) : GOp → GridL
  | .excludeOp vals => (exclude g vals).1
  | .requireOp vals => (require g vals).1
  | .requireOneOp f os => (requireOne g f os).1

def applyOps (g : GridL) (ops : List GOp) : GridL := ops.foldl applyOp g

/-! Mutators never touch the category map, so index routing is stable. -/

theorem foldl_cats_invariant {α : Type} (f : GridL → α → GridL)
    (hf : ∀ g a, (f g a).cats = g.cats) :
    ∀ (l : List α) (g : GridL), (l.foldl f g).cats = g.cats := by
  intro l
  induction l with
  | nil => intro g; rfl
  | cons a l ih => intro g; rw [List.foldl_cons, ih, hf]

theorem exclude_cats (g : GridL) (vals : List Lit) :
    (exclude g vals).1.cats = g.cats := by
  unfold exclude
  cases resolveAll g.lookup vals with
  | error e => rfl
  | ok infos =>
    exact foldl_cats_invariant _ (fun g p => by split <;> rfl) _ g

theorem require_loop_cats :
    ∀ (ps : List (ValInfo × ValInfo)) (g : GridL),
    (require_loop g ps).1.cats = g.cats := by
  intro ps
  induction ps with
  | nil => intro g; rfl
  | cons p rest ih =>
    intro g
    unfold require_loop
    split
    · rfl
    · rw [ih]
      rfl

theorem require_cats (g : GridL) (vals : List Lit) :
    (require g vals).1.cats = g.cats := by
  unfold require
  cases resolveAll g.lookup vals with
  | error e => rfl
  | ok infos => exact require_loop_cats _ g

theorem requireOne_cats (g : GridL) (first : Lit) (options : List Lit) :
    (requireOne g first options).1.cats = g.cats := by
  unfold requireOne
  cases get_info g.lookup first with
  | error e => rfl
  | ok i1 =>
    cases resolveAll g.lookup options with
    | error e => rfl
    | ok opts =>
      simp only
      split
      · rfl
      · split
        · rfl
        · refine Eq.trans (foldl_cats_invariant _ ?_ opts _)
            (foldl_cats_invariant _ ?_ (List.range g.numItems) g)
          · intro g' a; rfl
          · intro g' a; rfl

theorem applyOp_cats (g : GridL) (op : GOp) : (applyOp g op).cats = g.cats := by
  cases op with
  | excludeOp vals => exact exclude_cats g vals
  | requireOp vals => exact require_cats g vals
  | requireOneOp f os => exact requireOne_cats g f os

theorem applyOps_cats (g : GridL) (ops : List GOp) :
    (applyOps g ops).cats = g.cats :=
  foldl_cats_invariant applyOp applyOp_cats ops g

/-- Claim C5: after any sequence of `exclude` / `require` / `requireOne`
calls, the two directional views of every pair matrix agree:
`grid[A][B][i, j] == grid[B][A][j, i]` for distinct categories `A`, `B`. -/
theorem grid_transpose_invariant (cats : List (String × List String))
    (ops : List GOp) (A B : String) (i j : Nat)
    (hA : A ∈ cats.map Prod.fst) (hB : B ∈ cats.map Prod.fst) (hAB : A ≠ B) :
    gridRead (applyOps (GridL.init cats) ops) A B i j
      = gridRead (applyOps (GridL.init cats) ops) B A j i := by
  have hcats : (applyOps (GridL.init cats) ops).catNames = cats.map Prod.fst := by
    unfold GridL.catNames
    rw [applyOps_cats]
    rfl
  exact gridRead_symm _ A B i j (hcats ▸ hA) (hcats ▸ hB) hAB

theorem grid_transpose_invariant_witness :
    gridRead (applyOps
        (GridL.init [("person", ["ann", "ben"]), ("drink", ["tea", "cof"])])
        [GOp.excludeOp [Lit.str "ann", Lit.str "tea"]]) "person" "drink" 0 0
      = gridRead (applyOps
        (GridL.init [("person", ["ann", "ben"]), ("drink", ["tea", "cof"])])
        [GOp.excludeOp [Lit.str "ann", Lit.str "tea"]]) "drink" "person" 0 0 :=
  grid_transpose_invariant
    [("person", ["ann", "ben"]), ("drink", ["tea", "cof"])]
    [GOp.excludeOp [Lit.str "ann", Lit.str "tea"]] "person" "drink" 0 0
    (by decide) (by decide) (by decide)

/-- Claim C10: `require(v1, v2, v3)` with `v2`, `v3` sharing a category
distinct from `v1`'s raises the same-category `ValueError` only after having
written the `(v1, v2)` and `(v1, v3)` cells to `True`, and those writes
persist in the returned state. -/
theorem require_not_atomic (g : GridL) (v1 v2 v3 : ValInfo)
    (h23 : v2.cat = v3.cat) (h12 : v1.cat ≠ v2.cat) :
    (require g [.info v1, .info v2, .info v3]).2
        = some (.valueError
            ("Cannot require both " ++ v2.fullname ++ " and " ++ v3.fullname))
  ∧ gridRead (require g [.info v1, .info v2, .info v3]).1
        v1.cat v2.cat v1.idx v2.idx = some true
  ∧ gridRead (require g [.info v1, .info v2, .info v3]).1
        v1.cat v3.cat v1.idx v3.idx = some true := by
  have h13 : v1.cat ≠ v3.cat := h23 ▸ h12
  have hres : require g [.info v1, .info v2, .info v3]
      = require_loop g [(v1, v2), (v1, v3), (v2, v3)] := by
    unfold require
    rw [show ([Lit.info v1, .info v2, .info v3] : List Lit)
        = [v1, v2, v3].map Lit.info from rfl, resolveAll_infos]
    rfl
  have hloop : require_loop g [(v1, v2), (v1, v3), (v2, v3)]
      = (gridWrite (gridWrite g v1.cat v2.cat v1.idx v2.idx (some true))
           v1.cat v3.cat v1.idx v3.idx (some true),
         some (.valueError
           ("Cannot require both " ++ v2.fullname ++ " and " ++ v3.fullname))) := by
    unfold require_loop
    rw [if_neg h12]
    unfold require_loop
    rw [if_neg h13]
    unfold require_loop
    rw [if_pos h23]
  rw [hres, hloop]
  refine ⟨rfl, ?_, ?_⟩
  · rw [h23, gridRead_gridWrite_pair]
    by_cases hii : v2.idx = v3.idx
    · rw [if_pos ⟨rfl, hii⟩]
    · rw [if_neg (fun hcon => hii hcon.2), gridRead_gridWrite_pair,
        if_pos ⟨rfl, rfl⟩]
  · rw [gridRead_gridWrite_pair, if_pos ⟨rfl, rfl⟩]

theorem require_not_atomic_witness :
    (require (GridL.init [("person", ["ann", "ben"]), ("drink", ["tea", "cof"])])
        [.info ⟨"person", "ann", 0⟩, .info ⟨"drink", "tea", 0⟩,
         .info ⟨"drink", "cof", 1⟩]).2
        = some (.valueError "Cannot require both drink:tea and drink:cof")
  ∧ gridRead (require
        (GridL.init [("person", ["ann", "ben"]), ("drink", ["tea", "cof"])])
        [.info ⟨"person", "ann", 0⟩, .info ⟨"drink", "tea", 0⟩,
         .info ⟨"drink", "cof", 1⟩]).1 "person" "drink" 0 0 = some true
  ∧ gridRead (require
        (GridL.init [("person", ["ann", "ben"]), ("drink", ["tea", "cof"])])
        [.info ⟨"person", "ann", 0⟩, .info ⟨"drink", "tea", 0⟩,
         .info ⟨"drink", "cof", 1⟩]).1 "person" "drink" 0 1 = some true := by
  have h := require_not_atomic
    (GridL.init [("person", ["ann", "ben"]), ("drink", ["tea", "cof"])])
    ⟨"person", "ann", 0⟩ ⟨"drink", "tea", 0⟩ ⟨"drink", "cof", 1⟩
    (by decide) (by decide)
  obtain ⟨h1, h2, h3⟩ := h
  refine ⟨?_, h2, h3⟩
  rw [h1]
  rfl

/-! ### `requireOne` row behaviour (claim C6) -/

theorem rowFalse_read (g : GridL) (A B : String) (i : Nat) :
    ∀ (n : Nat) (i' j' : Nat),
    gridRead ((List.range n).foldl
        (fun g j => gridWrite g A B i j (some false)) g) A B i' j'
      = if i' = i ∧ j' < n then some false else gridRead g A B i' j' := by
  intro n
  induction n with
  | zero => intro i' j'; simp
  | succ n ih =>
    intro i' j'
    rw [List.range_succ, List.foldl_append, List.foldl_cons, List.foldl_nil,
      gridRead_gridWrite_pair, ih]
    by_cases hi : i' = i
    · subst hi
      by_cases hj : j' = n
      · subst hj
        simp
      · by_cases hj2 : j' < n
        · simp [hj, hj2, Nat.lt_succ_of_lt hj2]
        · have hj3 : ¬ j' < n + 1 := by omega
          simp [hj, hj2, hj3]
    · simp [hi]

theorem optWrite_read (g : GridL) (A B : String) (i : Nat)
    (w : Nat → Option Bool) :
    ∀ (opts : List ValInfo) (i' j' : Nat),
    gridRead (opts.foldl
        (fun g o => gridWrite g A B i o.idx (w o.idx)) g) A B i' j'
      = if i' = i ∧ ∃ o ∈ opts, o.idx = j' then w j'
        else gridRead g A B i' j' := by
  intro opts
  induction opts generalizing g with
  | nil => intro i' j'; simp
  | cons o rest ih =>
    intro i' j'
    rw [List.foldl_cons, ih]
    by_cases hmem : i' = i ∧ ∃ o' ∈ rest, o'.idx = j'
    · rw [if_pos hmem,
        if_pos ⟨hmem.1, by
          obtain ⟨-, o', ho', hj'⟩ := hmem
          exact ⟨o', List.mem_cons_of_mem _ ho', hj'⟩⟩]
    · rw [if_neg hmem, gridRead_gridWrite_pair]
      by_cases ho : i' = i ∧ j' = o.idx
      · rw [if_pos ho,
          if_pos ⟨ho.1, o, List.mem_cons_self _ _, ho.2.symm⟩, ho.2]
      · rw [if_neg ho, if_neg]
        intro hcon
        obtain ⟨hi, o', ho', hj'⟩ := hcon
        rcases List.mem_cons.mp ho' with rfl | ho''
        · exact ho ⟨hi, hj'.symm⟩
        · exact hmem ⟨hi, o', ho'', hj'⟩

theorem old_row_getD (g : GridL) (A B : String) (i : Nat) (n : Nat)
    (j : Nat) (hj : j < n) :
    (((List.range n).map (fun j => gridRead g A B i j)).getD j none)
      = gridRead g A B i j := by
  rw [List.getD_eq_getElem?_getD, List.getElem?_map, List.getElem?_range hj]
  rfl

theorem distinctList_aux (c : String) :
    ∀ (l : List String), (∀ x ∈ l, x = c) →
    l.foldl (fun acc x => if x ∈ acc then acc else acc ++ [x]) [c] = [c] := by
  intro l
  induction l with
  | nil => intro _; rfl
  | cons x l ih =>
    intro h
    rw [List.foldl_cons, h x (List.mem_cons_self _ _),
      if_pos (List.mem_singleton.mpr rfl)]
    exact ih (fun y hy => h y (List.mem_cons_of_mem _ hy))

theorem distinctList_const (c : String) :
    ∀ (l : List String), l ≠ [] → (∀ x ∈ l, x = c) → distinctList l = [c] := by
  intro l hne h
  cases l with
  | nil => exact absurd rfl hne
  | cons x l =>
    unfold distinctList
    rw [List.foldl_cons, h x (List.mem_cons_self _ _)]
    have hstep : (if c ∈ ([] : List String) then ([] : List String)
        else [] ++ [c]) = [c] := by simp
    rw [hstep]
    exact distinctList_aux c l (fun y hy => h y (List.mem_cons_of_mem _ hy))

/-- `requireOne` on resolved values with a single, nonempty option category:
the computation it performs, written out. -/
theorem requireOne_unfold (g : GridL) (a : ValInfo) (opts : List ValInfo)
    (c : String) (hc : ∀ o ∈ opts, o.cat = c) (hopts : opts ≠ []) :
    requireOne g (.info a) (opts.map .info)
      = (opts.foldl
          (fun g' o => gridWrite g' a.cat c a.idx o.idx
            (orNone ((((List.range g.numItems).map
              (fun j => gridRead g a.cat c a.idx j))).getD o.idx none)))
          ((List.range g.numItems).foldl
            (fun g' j => gridWrite g' a.cat c a.idx j (some false)) g),
         none) := by
  have hcs : distinctList (opts.map ValInfo.cat) = [c] := by
    apply distinctList_const
    · simpa using hopts
    · intro x hx
      obtain ⟨o, ho, rfl⟩ := List.mem_map.mp hx
      exact hc o ho
  unfold requireOne
  rw [show get_info g.lookup (.info a) = .ok a from rfl, resolveAll_infos]
  simp only [hcs]
  rfl

/-- Claim C6 as stated is false on the code: after `requireOne`, an option
cell that previously held `False` holds `None` (unknown), not its prior
value — `old[i2.idx] or None` collapses `False` to `None`. -/
theorem requireOne_restores_false_ce :
    gridRead ((exclude (GridL.init
        [("person", ["ann", "ben"]), ("drink", ["tea", "cof"])])
        [Lit.str "ann", Lit.str "tea"]).1) "person" "drink" 0 0 = some false
  ∧ gridRead ((requireOne ((exclude (GridL.init
        [("person", ["ann", "ben"]), ("drink", ["tea", "cof"])])
        [Lit.str "ann", Lit.str "tea"]).1) (Lit.str "ann")
        [Lit.str "tea", Lit.str "cof"]).1) "person" "drink" 0 0 = none := by
  refine ⟨rfl, rfl⟩

/-- Claim C6, amended: after `requireOne(anchor, options)` with all options in
one category `c` different from the anchor's, every cell of the anchor's row
outside the option indices is `False`; an option cell is `True` exactly when
it previously held `True`, and otherwise becomes `None` (unknown) — it is
never forced `True`, and a previously-`False` option cell is reset to
unknown rather than kept `False`. -/
theorem requireOne_row_behavior (g : GridL) (a : ValInfo)
    (opts : List ValInfo) (c : String)
    (hc : ∀ o ∈ opts, o.cat = c) (hopts : opts ≠ []) (hac : a.cat ≠ c) :
    ((requireOne g (.info a) (opts.map .info)).2 = none)
  ∧ (∀ j, j < g.numItems → (∀ o ∈ opts, o.idx ≠ j) →
      gridRead (requireOne g (.info a) (opts.map .info)).1 a.cat c a.idx j
        = some false)
  ∧ (∀ o ∈ opts, o.idx < g.numItems →
      gridRead (requireOne g (.info a) (opts.map .info)).1 a.cat c a.idx o.idx
        = orNone (gridRead g a.cat c a.idx o.idx)) := by
  have hacne := hac
  rw [requireOne_unfold g a opts c hc hopts]
  refine ⟨rfl, ?_, ?_⟩
  · intro j hj hno
    dsimp only
    rw [optWrite_read _ a.cat c a.idx
        (fun jj => orNone ((List.map (fun j => gridRead g a.cat c a.idx j)
          (List.range g.numItems)).getD jj none)) opts a.idx j,
      if_neg, rowFalse_read, if_pos ⟨rfl, hj⟩]
    intro hcon
    obtain ⟨-, o, ho, hoj⟩ := hcon
    exact hno o ho hoj
  · intro o ho hidx
    dsimp only
    rw [optWrite_read _ a.cat c a.idx
        (fun jj => orNone ((List.map (fun j => gridRead g a.cat c a.idx j)
          (List.range g.numItems)).getD jj none)) opts a.idx o.idx,
      if_pos ⟨rfl, o, ho, rfl⟩]
    rw [old_row_getD g a.cat c a.idx g.numItems o.idx hidx]

theorem requireOne_row_behavior_witness :
    gridRead (requireOne
        (GridL.init [("person", ["ann", "ben"]), ("drink", ["tea", "cof"])])
        (.info ⟨"person", "ann", 0⟩)
        (List.map Lit.info [⟨"drink", "tea", 0⟩])).1
      "person" "drink" 0 1 = some false :=
  (requireOne_row_behavior
      (GridL.init [("person", ["ann", "ben"]), ("drink", ["tea", "cof"])])
      ⟨"person", "ann", 0⟩ [⟨"drink", "tea", 0⟩] "drink"
      (by intro o ho; fin_cases ho; rfl) (by decide) (by decide)).2.1
    1 (by decide) (by intro o ho; fin_cases ho; decide)

/-! ### CatProblem: z3-backed constraint generation
(`src/puztool/logic/cat_prob.py`, class `CatProblem`) -/

/-- A solver variable of a `CatProblem`: one boolean per relation cell
(`z3.Bool(f'{a.fullname}_{b.fullname}')`, one matrix per canonical category
pair) and one variable per (value, extra category)
(`domain.mk(f'{a.fullname}_{name}')`). -/
inductive PVar
  | rel (c1 c2 : String) (i j : Nat)
  | xv (cat : String) (x : String) (i : Nat)
deriving DecidableEq

/-- A `CustomDomain`: `IntDomain(low, high, unique)` or `BoolDomain`. -/
inductive DomainL
  | intD (low high : Int) (uniq : Bool)
  | boolD

/-- `CustomDomain.cons(vs)`. -/
def DomainL.cons : DomainL → List PVar → List (BExpr PVar)
  | .intD low high _, vs =>
    vs.map (fun v => .andE (.geConst v low) (.leConst v high))
  | .boolD, _ => []

/-- `CustomDomain.unique`. -/
def DomainL.uniq : DomainL → Bool
  | .intD _ _ u => u
  | .boolD => false

/-- A `CatProblem`: grid categories, extra categories, the entered facts
(the `CatGrid` cells behind `cons_grid`), and user constraints added via
`add` / `add_constraint`. -/
structure CatProblem where
  cats : List (String × List String)
  xcats : List (String × DomainL)
  bgrids : String → String → Nat → Nat → Option Bool
  userCons : List (BExpr PVar)

def CatProblem.categories (cp : CatProblem) : List String :=
  cp.cats.map Prod.fst

def CatProblem.numItems (cp : CatProblem) : Nat :=
  match cp.cats with
  | [] => 0
  | p :: _ => p.2.length

/-- `self.vgrids[A][B][i, j]`: for each canonical pair `(f1, f2)` the matrix
is stored once, and `vgrids[f2][f1]` is its transpose. -/
def vgV (cats : List String) (A B : String) (i j : Nat) : PVar :=
  if cats.indexOf A < cats.indexOf B then .rel A B i j else .rel B A j i

/-- `CatProblem.cons_rowcol`: for every pair matrix, every row and every
column has exactly one `True`. -/
def cons_rowcol (cp : CatProblem) : List (BExpr PVar) :=
  (combos2 cp.categories).bind (fun p =>
    (List.range cp.numItems).bind (fun i =>
      [BExpr.exactlyOne ((List.range cp.numItems).map
          (fun j => PVar.rel p.1 p.2 i j)),
       BExpr.exactlyOne ((List.range cp.numItems).map
          (fun j => PVar.rel p.1 p.2 j i))]))

/-- `CatProblem.cons_sanity`: transitivity over ordered category triples,
plus extra-category coherence across pairings. -/
def cons_sanity (cp : CatProblem) : List (BExpr PVar) :=
  ((combos3 cp.categories).bind (fun t =>
    (List.range cp.numItems).bind (fun i =>
      (List.range cp.numItems).bind (fun j =>
        (List.range cp.numItems).map (fun k =>
          BExpr.impliesE
            (.andE (.var (vgV cp.categories t.1 t.2.1 i j))
                   (.var (vgV cp.categories t.2.1 t.2.2 j k)))
            (.var (vgV cp.categories t.1 t.2.2 i k)))))))
  ++ (cp.xcats.bind (fun x =>
    (combos2 cp.categories).bind (fun p =>
      (List.range cp.numItems).bind (fun i =>
        (List.range cp.numItems).map (fun j =>
          BExpr.orE (.eqLit (vgV cp.categories p.1 p.2 i j) (.b false))
            (.eqVar (.xv p.1 x.1 i) (.xv p.2 x.1 j)))))))

/-- `CatProblem.cons_grid`: every non-`None` entered cell pins its
variable. -/
def cons_grid (cp : CatProblem) : List (BExpr PVar) :=
  (combos2 cp.categories).bind (fun p =>
    (List.range cp.numItems).bind (fun i =>
      (List.range cp.numItems).filterMap (fun j =>
        match cp.bgrids p.1 p.2 i j with
        | some b => some (BExpr.eqLit (vgV cp.categories p.1 p.2 i j) (.b b))
        | none => none)))

/-- `CatProblem.cons_domains`: per-domain range constraints, plus pairwise
distinctness over the first category's variables for unique domains. -/
def cons_domains (cp : CatProblem) : List (BExpr PVar) :=
  cp.xcats.bind (fun x =>
    (x.2.cons (cp.categories.bind (fun cat =>
        (List.range cp.numItems).map (fun i => PVar.xv cat x.1 i))))
    ++ (if x.2.uniq then
          (combos2 ((List.range cp.numItems).map
            (fun i => PVar.xv (cp.categories.headD "") x.1 i))).map
            (fun q => BExpr.neVar q.1 q.2)
        else []))

/-- `CatProblem.constraints()`. -/
def CatProblem.constraints (cp : CatProblem) : List (BExpr PVar) :=
  cons_sanity cp ++ cons_rowcol cp ++ cons_grid cp ++ cons_domains cp
    ++ cp.userCons

/-- `CatProblem.uniques()`: every extra-category variable, then every
relation-cell variable. -/
def CatProblem.uniques (cp : CatProblem) : List PVar :=
  (cp.xcats.bind (fun x => cp.categories.bind (fun cat =>
    (List.range cp.numItems).map (fun i => PVar.xv cat x.1 i))))
  ++ ((combos2 cp.categories).bind (fun p =>
    (List.range cp.numItems).bind (fun i =>
      (List.range cp.numItems).map (fun j => PVar.rel p.1 p.2 i j))))

/-- The `Solvable` face of a `CatProblem`. -/
def catProblemL (cp : CatProblem) : ProblemL PVar :=
  ⟨cp.constraints, cp.uniques⟩

/-! Membership of generated constraints, and what models satisfy. -/

theorem mem_combos2 {α : Type} [DecidableEq α] :
    ∀ (l : List α) (a b : α), a ∈ l → b ∈ l →
    l.indexOf a < l.indexOf b → (a, b) ∈ combos2 l := by
  intro l
  induction l with
  | nil => intro a b ha _ _; simp at ha
  | cons x xs ih =>
    intro a b ha hb hlt
    unfold combos2
    rw [List.mem_append]
    by_cases hax : a = x
    · subst hax
      left
      have hbx : b ≠ a := by
        intro h
        subst h
        omega
      have hbxs : b ∈ xs := by
        rcases List.mem_cons.mp hb with h | h
        · exact absurd h hbx
        · exact h
      exact List.mem_map.mpr ⟨b, hbxs, rfl⟩
    · right
      have hbx : b ≠ x := by
        intro h
        subst h
        rw [List.indexOf_cons_self] at hlt
        omega
      have ha' : a ∈ xs := by
        rcases List.mem_cons.mp ha with h | h
        · exact absurd h hax
        · exact h
      have hb' : b ∈ xs := by
        rcases List.mem_cons.mp hb with h | h
        · exact absurd h hbx
        · exact h
      apply ih a b ha' hb'
      rw [List.indexOf_cons_ne xs (fun h => hax h.symm),
        List.indexOf_cons_ne xs (fun h => hbx h.symm)] at hlt
      omega

theorem mem_combos3 {α : Type} [DecidableEq α] :
    ∀ (l : List α) (a b c : α), a ∈ l → b ∈ l → c ∈ l →
    l.indexOf a < l.indexOf b → l.indexOf b < l.indexOf c →
    (a, b, c) ∈ combos3 l := by
  intro l
  induction l with
  | nil => intro a b c ha _ _ _ _; simp at ha
  | cons x xs ih =>
    intro a b c ha hb hc hab hbc
    unfold combos3
    rw [List.mem_append]
    by_cases hax : a = x
    · subst hax
      left
      have hba : b ≠ a := by
        intro h
        subst h
        omega
      have hca : c ≠ a := by
        intro h
        subst h
        omega
      have hb' : b ∈ xs := by
        rcases List.mem_cons.mp hb with h | h
        · exact absurd h hba
        · exact h
      have hc' : c ∈ xs := by
        rcases List.mem_cons.mp hc with h | h
        · exact absurd h hca
        · exact h
      have hlt' : xs.indexOf b < xs.indexOf c := by
        rw [List.indexOf_cons_ne xs (fun h => hba (h.symm)),
          List.indexOf_cons_ne xs (fun h => hca (h.symm))] at hbc
        omega
      exact List.mem_map.mpr ⟨(b, c), mem_combos2 xs b c hb' hc' hlt', rfl⟩
    · right
      have hbx : b ≠ x := by
        intro h
        subst h
        rw [List.indexOf_cons_self] at hab
        omega
      have hcx : c ≠ x := by
        intro h
        subst h
        rw [List.indexOf_cons_self] at hbc
        omega
      have ha' : a ∈ xs := by
        rcases List.mem_cons.mp ha with h | h
        · exact absurd h hax
        · exact h
      have hb' : b ∈ xs := by
        rcases List.mem_cons.mp hb with h | h
        · exact absurd h hbx
        · exact h
      have hc' : c ∈ xs := by
        rcases List.mem_cons.mp hc with h | h
        · exact absurd h hcx
        · exact h
      apply ih a b c ha' hb' hc'
      · rw [List.indexOf_cons_ne xs (fun h => hax h.symm),
          List.indexOf_cons_ne xs (fun h => hbx h.symm)] at hab
        omega
      · rw [List.indexOf_cons_ne xs (fun h => hbx h.symm),
          List.indexOf_cons_ne xs (fun h => hcx h.symm)] at hbc
        omega

/-- What any model of the full constraint set satisfies. -/
def SatisfiesCP (cp : CatProblem) (m : Model PVar) : Prop :=
  ∀ c ∈ cp.constraints, c.eval m = true

theorem enumerated_satisfies (cp : CatProblem) {check : Oracle PVar}
    (hs : Sound check) {limit : Nat} {m : Model PVar}
    (hm : m ∈ (all_solns check (catProblemL cp) limit).1) :
    SatisfiesCP cp m :=
  fun c hc => enumerated_model_sat hs hm c hc

theorem rowcol_sub (cp : CatProblem) {c : BExpr PVar}
    (h : c ∈ cons_rowcol cp) : c ∈ cp.constraints :=
  List.mem_append.mpr (Or.inl (List.mem_append.mpr (Or.inl
    (List.mem_append.mpr (Or.inl (List.mem_append.mpr (Or.inr h)))))))

theorem sanity_sub (cp : CatProblem) {c : BExpr PVar}
    (h : c ∈ cons_sanity cp) : c ∈ cp.constraints :=
  List.mem_append.mpr (Or.inl (List.mem_append.mpr (Or.inl
    (List.mem_append.mpr (Or.inl (List.mem_append.mpr (Or.inl h)))))))

theorem vgV_swap (cats : List String) (A B : String) (i j : Nat)
    (hne : cats.indexOf A ≠ cats.indexOf B) :
    vgV cats A B i j = vgV cats B A j i := by
  unfold vgV
  rcases Nat.lt_trichotomy (cats.indexOf A) (cats.indexOf B) with h | h | h
  · rw [if_pos h, if_neg (by omega)]
  · exact absurd h hne
  · rw [if_neg (by omega), if_pos h]

theorem cp_row_one (cp : CatProblem) (m : Model PVar)
    (hsat : SatisfiesCP cp m)
    {A B : String} (hA : A ∈ cp.categories) (hB : B ∈ cp.categories)
    (hAB : A ≠ B) {i : Nat} (hi : i < cp.numItems) :
    (List.range cp.numItems).countP
      (fun j => isTrueV m (vgV cp.categories A B i j)) = 1 := by
  have hne : cp.categories.indexOf A ≠ cp.categories.indexOf B :=
    fun h => hAB ((List.indexOf_inj hA hB).mp h)
  rcases Nat.lt_trichotomy (cp.categories.indexOf A) (cp.categories.indexOf B)
    with hlt | heq | hgt
  · have hmem : BExpr.exactlyOne ((List.range cp.numItems).map
        (fun j => PVar.rel A B i j)) ∈ cons_rowcol cp := by
      unfold cons_rowcol
      refine List.mem_bind.mpr ⟨(A, B), mem_combos2 _ A B hA hB hlt, ?_⟩
      refine List.mem_bind.mpr ⟨i, List.mem_range.mpr hi, ?_⟩
      simp
    have heval := hsat _ (rowcol_sub cp hmem)
    rw [show (BExpr.exactlyOne ((List.range cp.numItems).map
        (fun j => PVar.rel A B i j))).eval m
      = (((List.range cp.numItems).map
          (fun j => PVar.rel A B i j)).countP (isTrueV m) == 1) from rfl] at heval
    rw [List.countP_map] at heval
    simp only [beq_iff_eq] at heval
    rw [← heval]
    apply List.countP_congr
    intro a _
    simp only [Function.comp, vgV, if_pos hlt]
  · exact absurd heq hne
  · have hmem : BExpr.exactlyOne ((List.range cp.numItems).map
        (fun j => PVar.rel B A j i)) ∈ cons_rowcol cp := by
      unfold cons_rowcol
      refine List.mem_bind.mpr ⟨(B, A), mem_combos2 _ B A hB hA hgt, ?_⟩
      refine List.mem_bind.mpr ⟨i, List.mem_range.mpr hi, ?_⟩
      simp
    have heval := hsat _ (rowcol_sub cp hmem)
    rw [show (BExpr.exactlyOne ((List.range cp.numItems).map
        (fun j => PVar.rel B A j i))).eval m
      = (((List.range cp.numItems).map
          (fun j => PVar.rel B A j i)).countP (isTrueV m) == 1) from rfl] at heval
    rw [List.countP_map] at heval
    simp only [beq_iff_eq] at heval
    rw [← heval]
    apply List.countP_congr
    intro a _
    simp only [Function.comp, vgV, if_neg (by omega : ¬ cp.categories.indexOf A
      < cp.categories.indexOf B)]

theorem cp_col_one (cp : CatProblem) (m : Model PVar)
    (hsat : SatisfiesCP cp m)
    {A B : String} (hA : A ∈ cp.categories) (hB : B ∈ cp.categories)
    (hAB : A ≠ B) {i : Nat} (hi : i < cp.numItems) :
    (List.range cp.numItems).countP
      (fun j => isTrueV m (vgV cp.categories A B j i)) = 1 := by
  have hne : cp.categories.indexOf A ≠ cp.categories.indexOf B :=
    fun h => hAB ((List.indexOf_inj hA hB).mp h)
  have := cp_row_one cp m hsat hB hA (fun h => hAB h.symm) hi
  rw [← this]
  apply List.countP_congr
  intro a _
  rw [vgV_swap cp.categories B A i a (fun h => hne h.symm)]

theorem countP_one_exists {n : Nat} {p : Nat → Bool}
    (h : (List.range n).countP p = 1) : ∃ a, a < n ∧ p a = true := by
  rw [List.countP_eq_length_filter] at h
  obtain ⟨a, ha⟩ := List.length_eq_one.mp h
  have hmem : a ∈ (List.range n).filter p := by
    rw [ha]
    exact List.mem_singleton.mpr rfl
  obtain ⟨hr, hp⟩ := List.mem_filter.mp hmem
  exact ⟨a, List.mem_range.mp hr, hp⟩

theorem countP_one_unique {n : Nat} {p : Nat → Bool}
    (h : (List.range n).countP p = 1) {a b : Nat}
    (ha : a < n) (hb : b < n) (hpa : p a = true) (hpb : p b = true) :
    a = b := by
  rw [List.countP_eq_length_filter] at h
  obtain ⟨x, hx⟩ := List.length_eq_one.mp h
  have hax : a ∈ (List.range n).filter p :=
    List.mem_filter.mpr ⟨List.mem_range.mpr ha, hpa⟩
  have hbx : b ∈ (List.range n).filter p :=
    List.mem_filter.mpr ⟨List.mem_range.mpr hb, hpb⟩
  rw [hx] at hax hbx
  rw [List.mem_singleton.mp hax, List.mem_singleton.mp hbx]

/-- The transitivity constraint itself, for an index-sorted category
triple. -/
theorem cp_sanity_sorted (cp : CatProblem) (m : Model PVar)
    (hsat : SatisfiesCP cp m)
    {X Y Z : String} (hXYZ : (X, Y, Z) ∈ combos3 cp.categories)
    {i j k : Nat} (hi : i < cp.numItems) (hj : j < cp.numItems)
    (hk : k < cp.numItems)
    (hxy : isTrueV m (vgV cp.categories X Y i j) = true)
    (hyz : isTrueV m (vgV cp.categories Y Z j k) = true) :
    isTrueV m (vgV cp.categories X Z i k) = true := by
  have hmem : BExpr.impliesE
      (.andE (.var (vgV cp.categories X Y i j))
             (.var (vgV cp.categories Y Z j k)))
      (.var (vgV cp.categories X Z i k)) ∈ cons_sanity cp := by
    unfold cons_sanity
    apply List.mem_append_left
    refine List.mem_bind.mpr ⟨(X, Y, Z), hXYZ, ?_⟩
    refine List.mem_bind.mpr ⟨i, List.mem_range.mpr hi, ?_⟩
    refine List.mem_bind.mpr ⟨j, List.mem_range.mpr hj, ?_⟩
    exact List.mem_map.mpr ⟨k, List.mem_range.mpr hk, rfl⟩
  have heval := hsat _ (sanity_sub cp hmem)
  simp only [BExpr.eval, hxy, hyz, Bool.and_self, Bool.not_true,
    Bool.false_or] at heval
  exact heval

/-- Derived: `XY[i,j] ∧ XZ[i,k] → YZ[j,k]` for a sorted triple, using the
exactly-one row constraints. -/
theorem cp_L2 (cp : CatProblem) (m : Model PVar)
    (hsat : SatisfiesCP cp m)
    {X Y Z : String} (hX : X ∈ cp.categories) (hY : Y ∈ cp.categories)
    (hZ : Z ∈ cp.categories)
    (hxy : cp.categories.indexOf X < cp.categories.indexOf Y)
    (hyz : cp.categories.indexOf Y < cp.categories.indexOf Z)
    {i j k : Nat} (hi : i < cp.numItems) (hj : j < cp.numItems)
    (hk : k < cp.numItems)
    (h1 : isTrueV m (vgV cp.categories X Y i j) = true)
    (h2 : isTrueV m (vgV cp.categories X Z i k) = true) :
    isTrueV m (vgV cp.categories Y Z j k) = true := by
  have hXY : X ≠ Y := by
    intro h
    rw [h] at hxy
    omega
  have hYZ : Y ≠ Z := by
    intro h
    rw [h] at hyz
    omega
  have hXZ : X ≠ Z := by
    intro h
    rw [h] at hxy
    omega
  have hYZrow := cp_row_one cp m hsat hY hZ hYZ hj
  obtain ⟨k', hk', hpk'⟩ := countP_one_exists hYZrow
  have h3 := cp_sanity_sorted cp m hsat
    (mem_combos3 _ X Y Z hX hY hZ hxy hyz) hi hj hk' h1 hpk'
  have hXZrow := cp_row_one cp m hsat hX hZ hXZ hi
  have hkk : k = k' := countP_one_unique hXZrow hk hk' h2 h3
  rw [hkk]
  exact hpk'

/-- Derived: `XZ[i,k] ∧ YZ[j,k] → XY[i,j]` for a sorted triple. -/
theorem cp_L3 (cp : CatProblem) (m : Model PVar)
    (hsat : SatisfiesCP cp m)
    {X Y Z : String} (hX : X ∈ cp.categories) (hY : Y ∈ cp.categories)
    (hZ : Z ∈ cp.categories)
    (hxy : cp.categories.indexOf X < cp.categories.indexOf Y)
    (hyz : cp.categories.indexOf Y < cp.categories.indexOf Z)
    {i j k : Nat} (hi : i < cp.numItems) (hj : j < cp.numItems)
    (hk : k < cp.numItems)
    (h1 : isTrueV m (vgV cp.categories X Z i k) = true)
    (h2 : isTrueV m (vgV cp.categories Y Z j k) = true) :
    isTrueV m (vgV cp.categories X Y i j) = true := by
  have hXY : X ≠ Y := by
    intro h
    rw [h] at hxy
    omega
  have hYZ : Y ≠ Z := by
    intro h
    rw [h] at hyz
    omega
  have hXZ : X ≠ Z := by
    intro h
    rw [h] at hxy
    omega
  obtain ⟨j', hj', hpj'⟩ := countP_one_exists (cp_row_one cp m hsat hX hY hXY hi)
  obtain ⟨k', hk', hpk'⟩ := countP_one_exists (cp_row_one cp m hsat hY hZ hYZ hj')
  have h3 := cp_sanity_sorted cp m hsat
    (mem_combos3 _ X Y Z hX hY hZ hxy hyz) hi hj' hk' hpj' hpk'
  have hkk : k' = k :=
    countP_one_unique (cp_row_one cp m hsat hX hZ hXZ hi) hk' hk h3 h1
  rw [hkk] at hpk'
  have hjj : j' = j :=
    countP_one_unique (cp_col_one cp m hsat hY hZ hYZ hk) hj' hj hpk' h2
  rw [hjj] at hpj'
  exact hpj'

/-- Claim C3: in any model enumerated from a `CatProblem` under a sound
solver, every relation matrix (in either directional view) has exactly one
`True` per row and exactly one `True` per column. -/
theorem soln_rowcol_exactly_one (cp : CatProblem) (check : Oracle PVar)
    (limit : Nat) (m : Model PVar) (hs : Sound check)
    (hm : m ∈ (all_solns check (catProblemL cp) limit).1)
    (A B : String) (hA : A ∈ cp.categories) (hB : B ∈ cp.categories)
    (hAB : A ≠ B) (i : Nat) (hi : i < cp.numItems) :
    (List.range cp.numItems).countP
        (fun j => isTrueV m (vgV cp.categories A B i j)) = 1
  ∧ (List.range cp.numItems).countP
        (fun j => isTrueV m (vgV cp.categories A B j i)) = 1 := by
  have hsat := enumerated_satisfies cp hs hm
  exact ⟨cp_row_one cp m hsat hA hB hAB hi,
    cp_col_one cp m hsat hA hB hAB hi⟩

/-- Claim C4: in any model enumerated from a `CatProblem` under a sound
solver, for every ordered triple of distinct categories `(A, B, C)` and all
in-range indices, `AB[i,j] ∧ BC[j,k] → AC[i,k]`. -/
theorem soln_transitivity (cp : CatProblem) (check : Oracle PVar)
    (limit : Nat) (m : Model PVar) (hs : Sound check)
    (hm : m ∈ (all_solns check (catProblemL cp) limit).1)
    (A B C : String) (hA : A ∈ cp.categories) (hB : B ∈ cp.categories)
    (hC : C ∈ cp.categories) (hAB : A ≠ B) (hBC : B ≠ C) (hAC : A ≠ C)
    (i j k : Nat) (hi : i < cp.numItems) (hj : j < cp.numItems)
    (hk : k < cp.numItems)
    (h1 : isTrueV m (vgV cp.categories A B i j) = true)
    (h2 : isTrueV m (vgV cp.categories B C j k) = true) :
    isTrueV m (vgV cp.categories A C i k) = true := by
  have hsat := enumerated_satisfies cp hs hm
  have hab : cp.categories.indexOf A ≠ cp.categories.indexOf B :=
    fun h => hAB ((List.indexOf_inj hA hB).mp h)
  have hbc : cp.categories.indexOf B ≠ cp.categories.indexOf C :=
    fun h => hBC ((List.indexOf_inj hB hC).mp h)
  have hac : cp.categories.indexOf A ≠ cp.categories.indexOf C :=
    fun h => hAC ((List.indexOf_inj hA hC).mp h)
  rcases Nat.lt_trichotomy (cp.categories.indexOf A) (cp.categories.indexOf B)
    with hoab | h | hoab
  · -- A before B
    rcases Nat.lt_trichotomy (cp.categories.indexOf B)
        (cp.categories.indexOf C) with hobc | h | hobc
    · -- A < B < C : the direct constraint
      exact cp_sanity_sorted cp m hsat
        (mem_combos3 _ A B C hA hB hC hoab hobc) hi hj hk h1 h2
    · exact absurd h hbc
    · rcases Nat.lt_trichotomy (cp.categories.indexOf A)
          (cp.categories.indexOf C) with hoac | h | hoac
      · -- A < C < B
        rw [vgV_swap cp.categories B C j k hbc] at h2
        exact cp_L3 cp m hsat hA hC hB hoac hobc hi hk hj h1 h2
      · exact absurd h hac
      · -- C < A < B
        rw [vgV_swap cp.categories B C j k hbc] at h2
        rw [vgV_swap cp.categories A C i k hac]
        exact cp_L3 cp m hsat hC hA hB hoac hoab hk hi hj h2 h1
  · exact absurd h hab
  · -- B before A
    rcases Nat.lt_trichotomy (cp.categories.indexOf A)
        (cp.categories.indexOf C) with hoac | h | hoac
    · -- B < A < C
      rw [vgV_swap cp.categories A B i j hab] at h1
      exact cp_L2 cp m hsat hB hA hC hoab hoac hj hi hk h1 h2
    · exact absurd h hac
    · rcases Nat.lt_trichotomy (cp.categories.indexOf B)
          (cp.categories.indexOf C) with hobc | h | hobc
      · -- B < C < A
        rw [vgV_swap cp.categories A B i j hab] at h1
        rw [vgV_swap cp.categories A C i k hac]
        exact cp_L2 cp m hsat hB hC hA hobc hoac hj hk hi h2 h1
      · exact absurd h hbc
      · -- C < B < A
        rw [vgV_swap cp.categories A B i j hab] at h1
        rw [vgV_swap cp.categories B C j k hbc] at h2
        rw [vgV_swap cp.categories A C i k hac]
        exact cp_sanity_sorted cp m hsat
          (mem_combos3 _ C B A hC hB hA hobc hoab) hk hj hi h2 h1

/-! Concrete problem, model, and sound oracle for the C3/C4 witnesses. -/

def cpW : CatProblem :=
  ⟨[("person", ["ann", "ben"]), ("drink", ["tea", "cof"]),
    ("sign", ["ares", "leo"])], [], fun _ _ _ _ => none, []⟩

def mW : Model PVar :=
  fun v => match v with
  | .rel _ _ i j => .b (i == j)
  | .xv _ _ _ => .b false

def checkW : Oracle PVar :=
  fun cs => if cs.all (fun c => c.eval mW) then some mW else none

theorem checkW_sound : Sound checkW := by
  intro cs m h c hc
  unfold checkW at h
  by_cases hall : cs.all (fun c => c.eval mW) = true
  · rw [if_pos hall] at h
    cases h
    exact List.all_eq_true.mp hall c hc
  · rw [if_neg hall] at h
    cases h

theorem mW_mem : mW ∈ (all_solns checkW (catProblemL cpW) 1).1 := by
  have he : all_solns checkW (catProblemL cpW) 1
      = ([mW], (all_solns checkW (catProblemL cpW) 1).2) := by
    have hc : checkW (catProblemL cpW).constraints = some mW := by rfl
    rw [all_solns, all_solns_loop, hc]
    rfl
  rw [he]
  exact List.mem_singleton.mpr rfl

theorem soln_rowcol_exactly_one_witness :
    (List.range cpW.numItems).countP
        (fun j => isTrueV mW (vgV cpW.categories "person" "drink" 0 j)) = 1
  ∧ (List.range cpW.numItems).countP
        (fun j => isTrueV mW (vgV cpW.categories "person" "drink" j 0)) = 1 :=
  soln_rowcol_exactly_one cpW checkW 1 mW checkW_sound mW_mem
    "person" "drink" (by decide) (by decide) (by decide) 0 (by decide)

theorem soln_transitivity_witness :
    isTrueV mW (vgV cpW.categories "person" "sign" 0 0) = true :=
  soln_transitivity cpW checkW 1 mW checkW_sound mW_mem
    "person" "drink" "sign" (by decide) (by decide) (by decide)
    (by decide) (by decide) (by decide) 0 0 0
    (by decide) (by decide) (by decide) (by decide) (by decide)

/-! ### jsingler.de export helpers (`src/logic_grid.py`,
`Grid._get_params` and friends) -/

/-- A word character: a letter, a digit, or an underscore (the ASCII
fragment of Python's regex `\w`; `re.sub(r'\W', '', s)` deletes exactly the
characters outside this class). -/
def pyWordChar (c : Char) : Bool := c.isAlphanum || c == '_'

/-- `esc(s)`, i.e. `re.sub(r'\W', '', s)`: the one-character-class
substitution deletes every non-word character. -/
def esc (s : String) : String := String.mk (s.data.filter pyWordChar)

/-- `Grid._encl(items)`. -/
def encl (items : List String) : String := "!(" ++ joinSep "," items ++ ")"

/-- `lowers` (`string.ascii_lowercase`, from `text.py`). -/
def lowersL : List Char := "abcdefghijklmnopqrstuvwxyz".data

/-- `Grid._get_encoded_grid(val)`: the entries `a3b5` for every cell whose
value equals `val` (a `None` cell compares unequal to both). -/
def get_encoded_grid (g : GridL) (val : Bool) : List String :=
  (combos2 g.catNames).bind (fun p =>
    (List.range g.numItems).bind (fun i =>
      (List.range g.numItems).filterMap (fun j =>
        if gridRead g p.1 p.2 i j = some val then
          some (String.singleton (lowersL.getD (g.catIdx p.1) '?')
            ++ toString i
            ++ String.singleton (lowersL.getD (g.catIdx p.2) '?')
            ++ toString j)
        else none)))

/-- The per-category escaped literal groups appended to `items` in
`Grid._get_params`. -/
def paramsItems (g : GridL) : List String :=
  g.cats.map (fun p => encl (p.2.map esc))

/-- `Grid._get_params()`. -/
def get_params (g : GridL) : String :=
  joinSep ","
    ["at:s", "ms:s",
     "nc:" ++ toString g.cats.length,
     "ni:" ++ toString g.numItems,
     "v:0",
     "items:" ++ encl (paramsItems g),
     "n:" ++ encl (get_encoded_grid g false),
     "p:" ++ encl (get_encoded_grid g true)]

/-- `a` occurs contiguously inside `b`. -/
def SubSeg {α : Type} (a b : List α) : Prop := ∃ s t, b = s ++ a ++ t

theorem subseg_trans {α : Type} {a b c : List α}
    (h1 : SubSeg a b) (h2 : SubSeg b c) : SubSeg a c := by
  obtain ⟨s1, t1, rfl⟩ := h1
  obtain ⟨s2, t2, rfl⟩ := h2
  exact ⟨s2 ++ s1, t1 ++ t2, by simp [List.append_assoc]⟩

theorem subseg_extend {α : Type} (a : List α) (pre post : List α)
    {b : List α} (h : SubSeg a b) : SubSeg a (pre ++ b ++ post) := by
  obtain ⟨s, t, rfl⟩ := h
  exact ⟨pre ++ s, t ++ post, by simp [List.append_assoc]⟩

theorem subseg_joinSep (x : String) :
    ∀ (l : List String), x ∈ l → SubSeg x.data (joinSep "," l).data := by
  intro l
  induction l with
  | nil => intro h; simp at h
  | cons y ys ih =>
    intro h
    rcases List.mem_cons.mp h with rfl | h'
    · cases ys with
      | nil => exact ⟨[], [], by simp [joinSep]⟩
      | cons z zs =>
        refine ⟨[], ("," ++ joinSep "," (z :: zs)).data, ?_⟩
        simp [joinSep, String.data_append, List.append_assoc]
    · cases ys with
      | nil => simp at h'
      | cons z zs =>
        obtain ⟨s, t, hst⟩ := ih h'
        refine ⟨(y ++ ",").data ++ s, t, ?_⟩
        simp [joinSep, String.data_append, hst, List.append_assoc]

/-- Claim C9 as stated is false on the code: `re.sub(r'\W', '', s)` keeps
underscores, which are neither letters nor digits.  For the literal `"a_b"`
the emitted literal is `"a_b"`, not the letters-and-digits-only `"ab"`. -/
theorem export_strip_alnum_ce :
    ("a_b" ∈ ((GridL.init [("c", ["a_b"]), ("d", ["x", "y"])]).cats.bind
        Prod.snd))
  ∧ paramsItems (GridL.init [("c", ["a_b"]), ("d", ["x", "y"])])
      = ["!(a_b)", "!(x,y)"]
  ∧ esc "a_b" ≠ String.mk ("a_b".data.filter Char.isAlphanum) := by
  refine ⟨by decide, by decide, by decide⟩

/-- Claim C9, amended: each literal is emitted into the export string with
every character outside letters, digits, and underscores removed (Python
`\W` keeps underscores), the emitted literal consists only of such word
characters, and it appears contiguously in the produced export string. -/
theorem export_literal_wordchars (g : GridL) (c : String)
    (dom : List String) (lit : String)
    (hc : (c, dom) ∈ g.cats) (hlit : lit ∈ dom) :
    esc lit = String.mk (lit.data.filter pyWordChar)
  ∧ (∀ ch ∈ (esc lit).data, pyWordChar ch = true)
  ∧ SubSeg (esc lit).data (get_params g).data := by
  refine ⟨rfl, ?_, ?_⟩
  · intro ch hch
    exact List.of_mem_filter hch
  · have h1 : SubSeg (esc lit).data (joinSep "," (dom.map esc)).data :=
      subseg_joinSep _ _ (List.mem_map.mpr ⟨lit, hlit, rfl⟩)
    have h2 : SubSeg (esc lit).data (encl (dom.map esc)).data := by
      have := subseg_extend (esc lit).data ("!(").data (")").data h1
      refine subseg_trans this ?_
      refine ⟨[], [], ?_⟩
      simp [encl, String.data_append]
    have h3 : SubSeg (esc lit).data
        (joinSep "," (paramsItems g)).data := by
      refine subseg_trans h2 (subseg_joinSep _ _ ?_)
      exact List.mem_map.mpr ⟨(c, dom), hc, rfl⟩
    have h3b : SubSeg (esc lit).data (encl (paramsItems g)).data := by
      refine subseg_trans (subseg_extend _ ("!(").data (")").data h3)
        ⟨[], [], ?_⟩
      simp [encl, String.data_append]
    have h4 : SubSeg (esc lit).data
        ("items:" ++ encl (paramsItems g)).data := by
      refine subseg_trans
        (subseg_extend _ ("items:").data ([] : List Char) h3b) ⟨[], [], ?_⟩
      simp [String.data_append]
    have h5 := subseg_joinSep ("items:" ++ encl (paramsItems g))
      ["at:s", "ms:s",
       "nc:" ++ toString g.cats.length,
       "ni:" ++ toString g.numItems,
       "v:0",
       "items:" ++ encl (paramsItems g),
       "n:" ++ encl (get_encoded_grid g false),
       "p:" ++ encl (get_encoded_grid g true)]
      (by simp)
    exact subseg_trans h4 h5

theorem export_literal_wordchars_witness :
    ((esc "a_b").data.all pyWordChar) = true := by
  rw [List.all_eq_true]
  exact (export_literal_wordchars
      (GridL.init [("c", ["a_b"]), ("d", ["x", "y"])])
      "c" ["a_b"] "a_b" (by decide) (by decide)).2.1

/-! ### CatSoln: rows and display grid
(`src/puztool/logic/cat_prob.py`, class `CatSoln`, for problems without
extra categories) -/

/-- `CatSoln.rows`: one row per first-category value; each other category's
entry is the literal of the first cell of that row the model sets `True`,
absent (`none`) when the scan finds no `True` cell.  A row is the list of
entries in category order. -/
def soln_rows (cp : CatProblem) (m : Model PVar) :
    List (List (Option String)) :=
  match cp.cats with
  | [] => []
  | (c1, d1) :: rest =>
    d1.enum.map (fun q =>
      some q.2 :: rest.map (fun p =>
        ((p.2.enum).find? (fun q2 =>
          isTrueV m (vgV cp.categories c1 p.1 q.1 q2.1))).map
          (fun q2 => q2.2)))

/-- The `while row[cat] in vals: row[cat] = '_' + row[cat]` loop.  It always
terminates (each pass lengthens the value and `vals` is finite); the fuel is
chosen at the call site to cover that bound. -/
def mangle (vals : List String) : Nat → String → String
  | 0, s => s
  | fuel + 1, s => if s ∈ vals then mangle vals fuel ("_" ++ s) else s

/-- One column of the deduplication pass of `CatSoln.grid`: each row's entry
is mangled against the values seen in the rows above. -/
def dedupCol : List String → List (Option String) → List (Option String)
  | _, [] => []
  | vals, none :: rest => none :: dedupCol vals rest
  | vals, some s :: rest =>
    let s' := mangle vals (vals.length + 1) s
    some s' :: dedupCol (vals ++ [s']) rest

/-- The deduplication pass of `CatSoln.grid`: every column (one per key of
the first row) is deduplicated independently. -/
def dedupRows (rows : List (List (Option String))) :
    List (List (Option String)) :=
  match rows with
  | [] => []
  | r0 :: _ =>
    (List.range rows.length).map (fun ri =>
      (List.range r0.length).map (fun ci =>
        (dedupCol [] (rows.map (fun r => (r.get? ci).getD none))).getD
          ri none))

/-- `row[f]` on the list representation of a row. -/
def rowGet (catNames : List String) (row : List (Option String))
    (f : String) : Option String :=
  (row.get? (catNames.indexOf f)).getD none

/-- `catmap[f]` of the rebuilt grid (which reuses the problem's category
map). -/
def domainOf (cp : CatProblem) (f : String) : List String :=
  ((cp.cats.find? (fun p => decide (p.1 = f))).map Prod.snd).getD []

/-- Rebuilding one row into the display grid: for every category pair, the
row's two literals are resolved (with the category as hint) and the cell is
set `True`; a missing entry raises `KeyError`. -/
def setRowCells (catNames : List String) (lk : Lookup)
    (row : List (Option String)) (g : GridL) : Except LGErr GridL :=
  (combos2 catNames).foldlM (fun g p =>
    match rowGet catNames row p.1 with
    | none => .error (.keyError p.1)
    | some v1 =>
      match rowGet catNames row p.2 with
      | none => .error (.keyError p.2)
      | some v2 => do
        let ia ← get_info_str lk v1 (some p.1)
        let ib ← get_info_str lk v2 (some p.2)
        pure (gridWrite g p.1 p.2 ia.idx ib.idx (some true))) g

/-- `CatSoln.grid` on the (deduplicated) rows of a problem without extra
categories: a fresh grid over the same category map with every cell
`False`, then one `True` cell per row and category pair. -/
def soln_grid (cp : CatProblem) (rows : List (List (Option String))) :
    Except LGErr GridL :=
  rows.foldlM
    (fun g row => setRowCells cp.categories (buildLookup cp.cats) row g)
    ⟨cp.cats, fun _ _ _ _ => some false⟩

/-! The deduplication pass is the identity when every column's present
values are pairwise distinct (which holds for enumerated solutions). -/

theorem mangle_not_mem {vals : List String} {s : String} (h : s ∉ vals)
    (fuel : Nat) : mangle vals (fuel + 1) s = s := by
  unfold mangle
  rw [if_neg h]

theorem dedupCol_noop :
    ∀ (col : List (Option String)) (vals : List String),
    (∀ s, some s ∈ col → s ∉ vals) →
    List.Pairwise (fun a b => ∀ s, a = some s → b ≠ some s) col →
    dedupCol vals col = col := by
  intro col
  induction col with
  | nil => intro vals _ _; rfl
  | cons v rest ih =>
    intro vals hnm hpw
    obtain ⟨hhead, htail⟩ := List.pairwise_cons.mp hpw
    cases v with
    | none =>
      unfold dedupCol
      rw [ih vals (fun s hs => hnm s (List.mem_cons_of_mem _ hs)) htail]
    | some s =>
      have hs : s ∉ vals := hnm s (List.mem_cons_self _ _)
      unfold dedupCol
      simp only
      rw [mangle_not_mem hs, ih (vals ++ [s]) ?_ htail]
      intro t ht hmem
      rcases List.mem_append.mp hmem with hv | hv
      · exact hnm t (List.mem_cons_of_mem _ ht) hv
      · have hts : t = s := List.mem_singleton.mp hv
        subst hts
        exact hhead (some t) ht t rfl rfl

theorem range_map_getD {α : Type} (d : α) :
    ∀ (l : List α), (List.range l.length).map (fun i => l.getD i d) = l := by
  intro l
  induction l with
  | nil => rfl
  | cons x xs ih =>
    rw [List.length_cons, List.range_succ_eq_map, List.map_cons, List.map_map]
    show x :: List.map ((fun i => (x :: xs).getD i d) ∘ Nat.succ)
        (List.range xs.length) = x :: xs
    rw [show ((fun i => (x :: xs).getD i d) ∘ Nat.succ)
        = (fun i => xs.getD i d) from rfl, ih]

theorem dedupRows_noop (rows : List (List (Option String)))
    (hlen : ∀ r ∈ rows, r.length = (rows.headD []).length)
    (hcols : ∀ ci, List.Pairwise (fun a b => ∀ s, a = some s → b ≠ some s)
      (rows.map (fun r => (r.get? ci).getD none))) :
    dedupRows rows = rows := by
  cases rows with
  | nil => rfl
  | cons r0 rest =>
    unfold dedupRows
    apply List.ext_getElem?
    intro ri
    by_cases hri : ri < (r0 :: rest).length
    · rw [List.getElem?_map, List.getElem?_range hri]
      have hrow : (r0 :: rest)[ri]? = some ((r0 :: rest).getD ri []) := by
        rw [List.getD_eq_getElem?_getD]
        cases hx : (r0 :: rest)[ri]? with
        | none =>
          rw [List.getElem?_eq_none_iff] at hx
          omega
        | some r => rfl
      rw [hrow]
      simp only [Option.map_some']
      congr 1
      have hnoop : ∀ ci, dedupCol []
          ((r0 :: rest).map (fun r => (r.get? ci).getD none))
          = (r0 :: rest).map (fun r => (r.get? ci).getD none) := by
        intro ci
        exact dedupCol_noop _ [] (fun s _ hs => (List.not_mem_nil s) hs)
          (hcols ci)
      have hlenr : ((r0 :: rest).getD ri []).length = r0.length := by
        have hmem : (r0 :: rest).getD ri [] ∈ (r0 :: rest) := by
          rw [List.getD_eq_getElem?_getD]
          cases hx : (r0 :: rest)[ri]? with
          | none =>
            rw [List.getElem?_eq_none_iff] at hx
            omega
          | some r =>
            simp only [Option.getD_some]
            rw [← List.get?_eq_getElem?] at hx
            exact List.get?_mem hx
        exact hlen _ hmem
      apply List.ext_getElem?
      intro ci
      by_cases hci : ci < r0.length
      · rw [List.getElem?_map, List.getElem?_range hci]
        simp only [Option.map_some']
        rw [hnoop ci]
        rw [List.getD_eq_getElem?_getD, List.getElem?_map, hrow]
        simp only [Option.map_some', Option.getD_some]
        have hci' : ci < ((r0 :: rest).getD ri []).length := by
          rw [hlenr]
          exact hci
        cases hy : ((r0 :: rest).getD ri [])[ci]? with
        | none =>
          rw [List.getElem?_eq_none_iff] at hy
          omega
        | some v =>
          rw [show ((r0 :: rest).getD ri []).get? ci
              = ((r0 :: rest).getD ri [])[ci]? from List.get?_eq_getElem? .., hy]
          rfl
      · rw [List.getElem?_eq_none (by simpa using (by omega : r0.length ≤ ci)),
          eq_comm, List.getElem?_eq_none (by rw [hlenr]; omega)]
    · have hle : (r0 :: rest).length ≤ ri := by omega
      rw [List.getElem?_eq_none (by simpa using hle), eq_comm,
        List.getElem?_eq_none hle]

/-! General literal resolution for well-formed category maps. -/

theorem nodup_fst_eq {α β : Type} [DecidableEq α] :
    ∀ (l : List (α × β)), (l.map Prod.fst).Nodup →
    ∀ p ∈ l, ∀ q ∈ l, p.1 = q.1 → p = q := by
  intro l
  induction l with
  | nil => intro _ p hp; simp at hp
  | cons x xs ih =>
    intro hnd p hp q hq heq
    rw [List.map_cons, List.nodup_cons] at hnd
    rcases List.mem_cons.mp hp with rfl | hp' <;>
      rcases List.mem_cons.mp hq with rfl | hq'
    · rfl
    · exact absurd (List.mem_map.mpr ⟨q, hq', heq.symm⟩) hnd.1
    · exact absurd (List.mem_map.mpr ⟨p, hp', heq⟩) hnd.1
    · exact ih hnd.2 p hp' q hq' heq

theorem mem_allInfos_of_pair {cats : List (String × List String)}
    {f v : String} {d : List String} (hf : (f, d) ∈ cats) (hv : v ∈ d) :
    (⟨f, v, d.indexOf v⟩ : ValInfo) ∈ allInfos cats := by
  unfold allInfos
  refine List.mem_bind.mpr ⟨(f, d), hf, ?_⟩
  refine List.mem_map.mpr ⟨(d.indexOf v, v), ?_, rfl⟩
  refine List.mk_mem_enum_iff_getElem?.mpr ?_
  have hlt := List.indexOf_lt_length.mpr hv
  rw [List.getElem?_eq_getElem hlt]
  have hg := List.indexOf_get hlt
  simp only [List.get_eq_getElem] at hg
  rw [hg]

theorem allInfos_shape {cats : List (String × List String)} {i : ValInfo}
    (hi : i ∈ allInfos cats) :
    ∃ d, (i.cat, d) ∈ cats ∧ (i.idx, i.val) ∈ d.enum := by
  unfold allInfos at hi
  obtain ⟨p, hp, hmem⟩ := List.mem_bind.mp hi
  obtain ⟨q, hq, rfl⟩ := List.mem_map.mp hmem
  exact ⟨p.2, by simpa using hp, hq⟩

theorem get_info_str_of_info {lk : Lookup} {value : String} {w : ValInfo}
    (cat : Option String) (hlk : lk value = some (Entry.info w)) :
    get_info_str lk value cat = .ok w := by
  unfold get_info_str
  rw [hlk]

theorem get_info_str_of_conflict {lk : Lookup} {value : String}
    {vs : List ValInfo} (c : String)
    (hlk : lk value = some (Entry.conflict vs)) :
    get_info_str lk value (some c)
      = (match lk (c ++ ":" ++ value) with
         | none => .error (.keyError (c ++ ":" ++ value))
         | some (.info w) => .ok w
         | some (.conflict vs2) =>
           .error (.ambiguityError (ambMsg (c ++ ":" ++ value) vs2))) := by
  unfold get_info_str
  rw [hlk]

/-- With colon-free names and literals and nodup names and domains, a
literal of category `f` resolves with hint `f` to its `ValInfo` (directly
when globally unique, through the qualified name when ambiguous). -/
theorem buildLookup_resolves (cats : List (String × List String))
    (f v : String) (d : List String)
    (hnd : (cats.map Prod.fst).Nodup)
    (hdomnd : ∀ p ∈ cats, p.2.Nodup)
    (hcolon : ∀ p ∈ cats, ':' ∉ p.1.data ∧ ∀ w ∈ p.2, ':' ∉ w.data)
    (hf : (f, d) ∈ cats) (hv : v ∈ d) :
    get_info_str (buildLookup cats) v (some f)
      = .ok ⟨f, v, d.indexOf v⟩ := by
  have hvcolon : ':' ∉ v.data := (hcolon _ hf).2 v hv
  have hfcolon : ':' ∉ f.data := (hcolon _ hf).1
  have hA : (⟨f, v, d.indexOf v⟩ : ValInfo) ∈ allInfos cats :=
    mem_allInfos_of_pair hf hv
  have hAoccs : (⟨f, v, d.indexOf v⟩ : ValInfo)
      ∈ (allInfos cats).filter (fun i => decide (v = i.val)) :=
    List.mem_filter.mpr ⟨hA, by simp⟩
  have hbare := buildLookup_bare cats v hvcolon
  have hvals : ∀ i ∈ allInfos cats, (f ++ ":" ++ v) ≠ i.val := by
    intro i hi heq
    obtain ⟨di, hdi, hqi⟩ := allInfos_shape hi
    have hvmem : i.val ∈ di := by
      have hgm := List.mk_mem_enum_iff_getElem?.mp hqi
      rw [← List.get?_eq_getElem?] at hgm
      exact List.get?_mem hgm
    exact (hcolon _ hdi).2 i.val hvmem (heq ▸ colon_mem_qualified f v)
  have hkey : buildLookup cats (f ++ ":" ++ v)
      = some (Entry.info ⟨f, v, d.indexOf v⟩) := by
    rw [buildLookup_fullkey cats _ hvals]
    have hfind : (allInfos cats).reverse.find?
        (fun i => decide ((f ++ ":" ++ v) = i.fullname))
        = some ⟨f, v, d.indexOf v⟩ := by
      apply find?_of_unique
      · exact List.mem_reverse.mpr hA
      · exact decide_eq_true rfl
      · intro b hb hpb
        have hb' := List.mem_reverse.mp hb
        obtain ⟨db, hdb, hqb⟩ := allInfos_shape hb'
        have hbcolon : ':' ∉ b.cat.data := (hcolon _ hdb).1
        have heq := of_decide_eq_true hpb
        obtain ⟨hcat, hval⟩ := string_fullname_inj hfcolon hbcolon heq
        have hpair : ((b.cat, db) : String × List String) = (f, d) :=
          nodup_fst_eq cats hnd (b.cat, db) hdb (f, d) hf (by rw [← hcat])
        have hdbd : db = d := congrArg Prod.snd hpair
        rw [hdbd] at hqb
        have hgb := List.mk_mem_enum_iff_getElem?.mp hqb
        rw [← hval] at hgb
        have hlt := List.indexOf_lt_length.mpr hv
        obtain ⟨hblt, hbget⟩ := List.get?_eq_some.mp
          ((List.get?_eq_getElem? d b.idx).trans hgb)
        have hAget := List.indexOf_get hlt
        have hidx : b.idx = d.indexOf v := by
          have hnodup := hdomnd _ hf
          have := hnodup.get_inj_iff.mp (hbget.trans hAget.symm)
          simpa using this
        cases b with
        | mk bcat bval bidx =>
          simp only at hcat hval hidx
          rw [← hcat, ← hval, hidx]
    rw [hfind]
  cases hoccs : (allInfos cats).filter (fun i => decide (v = i.val)) with
  | nil =>
    rw [hoccs] at hAoccs
    simp at hAoccs
  | cons x t =>
    cases t with
    | nil =>
      rw [hoccs] at hAoccs
      have hxA := List.mem_singleton.mp hAoccs
      rw [get_info_str_of_info (some f)
        (by rw [hbare, hoccs]; rfl), ← hxA]
    | cons y t2 =>
      rw [get_info_str_of_conflict f (by rw [hbare, hoccs]; rfl)]
      rw [hkey]

/-! Pure unfolding of the monadic rebuild, and reads over a write set. -/

theorem foldlM_ok {α β : Type} (fM : β → α → Except LGErr β)
    (f : β → α → β) :
    ∀ (l : List α), (∀ b a, a ∈ l → fM b a = .ok (f b a)) →
    ∀ (b : β), l.foldlM fM b = .ok (l.foldl f b) := by
  intro l
  induction l with
  | nil => intro _ b; rfl
  | cons a l ih =>
    intro h b
    rw [List.foldlM_cons, h b a (List.mem_cons_self _ _)]
    show l.foldlM fM (f b a) = _
    rw [ih (fun b' a' ha' => h b' a' (List.mem_cons_of_mem _ ha')),
      List.foldl_cons]

/-- The canonical storage key a directional access resolves to. -/
def canonKey (g : GridL) (A B : String) (i j : Nat) :
    String × String × Nat × Nat :=
  if g.catIdx A < g.catIdx B then (A, B, i, j) else (B, A, j, i)

theorem canonKey_gridWrite (g : GridL) (X Y : String) (p q : Nat)
    (v : Option Bool) (A B : String) (i j : Nat) :
    canonKey (gridWrite g X Y p q v) A B i j = canonKey g A B i j := rfl

theorem gridRead_eq_cells (g : GridL) (A B : String) (i j : Nat) :
    gridRead g A B i j
      = g.cells (canonKey g A B i j).1 (canonKey g A B i j).2.1
          (canonKey g A B i j).2.2.1 (canonKey g A B i j).2.2.2 := by
  unfold gridRead canonKey
  by_cases h : g.catIdx A < g.catIdx B
  · rw [if_pos h, if_pos h]
  · rw [if_neg h, if_neg h]

theorem gridRead_gridWrite_canon (g : GridL) (X Y : String) (p q : Nat)
    (v : Option Bool) (A B : String) (i j : Nat) :
    gridRead (gridWrite g X Y p q v) A B i j
      = if canonKey g A B i j = canonKey g X Y p q then v
        else gridRead g A B i j := by
  rw [gridRead_eq_cells, canonKey_gridWrite]
  rw [show (gridWrite g X Y p q v).cells = fun A' B' i' j' =>
      if (A', B', i', j') = canonKey g X Y p q then v
      else g.cells A' B' i' j' from rfl]
  simp only
  rw [show ((canonKey g A B i j).1, (canonKey g A B i j).2.1,
      (canonKey g A B i j).2.2.1, (canonKey g A B i j).2.2.2)
      = canonKey g A B i j from rfl]
  by_cases h : canonKey g A B i j = canonKey g X Y p q
  · rw [if_pos h, if_pos h]
  · rw [if_neg h, if_neg h, gridRead_eq_cells]

theorem foldl_writeTrue_read (ws : List (String × String × Nat × Nat)) :
    ∀ (g0 : GridL) (A B : String) (i j : Nat),
    gridRead (ws.foldl (fun g w =>
        gridWrite g w.1 w.2.1 w.2.2.1 w.2.2.2 (some true)) g0) A B i j
      = if ∃ w ∈ ws, canonKey g0 w.1 w.2.1 w.2.2.1 w.2.2.2
            = canonKey g0 A B i j
        then some true else gridRead g0 A B i j := by
  induction ws with
  | nil => intro g0 A B i j; simp
  | cons w ws ih =>
    intro g0 A B i j
    rw [List.foldl_cons, ih]
    simp only [canonKey_gridWrite]
    by_cases hex : ∃ w' ∈ ws, canonKey g0 w'.1 w'.2.1 w'.2.2.1 w'.2.2.2
        = canonKey g0 A B i j
    · rw [if_pos hex]
      obtain ⟨w', hw', he'⟩ := hex
      rw [if_pos ⟨w', List.mem_cons_of_mem _ hw', he'⟩]
    · rw [if_neg hex, gridRead_gridWrite_canon]
      by_cases hw : canonKey g0 A B i j
          = canonKey g0 w.1 w.2.1 w.2.2.1 w.2.2.2
      · rw [if_pos hw, if_pos ⟨w, List.mem_cons_self _ _, hw.symm⟩]
      · rw [if_neg hw, if_neg]
        intro hcon
        obtain ⟨w', hw', he'⟩ := hcon
        rcases List.mem_cons.mp hw' with rfl | hw''
        · exact hw he'.symm
        · exact hex ⟨w', hw'', he'⟩

theorem foldl_flatten {α β γ : Type} (f : γ → β → γ) (g : α → List β) :
    ∀ (l : List α) (c : γ),
    (l.bind g).foldl f c = l.foldl (fun c a => (g a).foldl f c) c := by
  intro l
  induction l with
  | nil => intro c; rfl
  | cons a l ih =>
    intro c
    rw [show (a :: l).bind g = g a ++ l.bind g from rfl,
      List.foldl_append, List.foldl_cons, ih]

theorem combos2_mem_spec {α : Type} [DecidableEq α] :
    ∀ (l : List α) (p : α × α), p ∈ combos2 l →
    p.1 ∈ l ∧ p.2 ∈ l ∧ (l.Nodup → l.indexOf p.1 < l.indexOf p.2) := by
  intro l
  induction l with
  | nil => intro p hp; simp [combos2] at hp
  | cons x xs ih =>
    intro p hp
    unfold combos2 at hp
    rcases List.mem_append.mp hp with h | h
    · obtain ⟨y, hy, rfl⟩ := List.mem_map.mp h
      refine ⟨List.mem_cons_self _ _, List.mem_cons_of_mem _ hy, ?_⟩
      intro hnd
      rw [List.indexOf_cons_self]
      have hyx : y ≠ x := fun h => (List.nodup_cons.mp hnd).1 (h ▸ hy)
      rw [List.indexOf_cons_ne xs (fun h => hyx h.symm)]
      omega
    · obtain ⟨h1, h2, h3⟩ := ih p h
      refine ⟨List.mem_cons_of_mem _ h1, List.mem_cons_of_mem _ h2, ?_⟩
      intro hnd
      obtain ⟨hx, hnd'⟩ := List.nodup_cons.mp hnd
      have h1x : p.1 ≠ x := fun h => hx (h ▸ h1)
      have h2x : p.2 ≠ x := fun h => hx (h ▸ h2)
      rw [List.indexOf_cons_ne xs (fun h => h1x h.symm),
        List.indexOf_cons_ne xs (fun h => h2x h.symm)]
      have h4 := h3 hnd'
      omega

/-! Row access and per-row resolution facts. -/

theorem rowGet_head (c1 : String) (names : List String) (x : Option String)
    (xs : List (Option String)) : rowGet (c1 :: names) (x :: xs) c1 = x := by
  unfold rowGet
  rw [List.indexOf_cons_self]
  rfl

theorem rowGet_tail (c1 f : String) (hne : f ≠ c1) (names : List String)
    (x : Option String) (xs : List (Option String)) :
    rowGet (c1 :: names) (x :: xs) f = rowGet names xs f := by
  unfold rowGet
  rw [List.indexOf_cons_ne _ (fun h => hne h.symm)]
  rfl

theorem rowGet_map {F : (String × List String) → Option String} :
    ∀ (rest : List (String × List String)) (p : String × List String),
    p ∈ rest → (rest.map Prod.fst).Nodup →
    rowGet (rest.map Prod.fst) (rest.map F) p.1 = F p := by
  intro rest
  induction rest with
  | nil => intro p hp; simp at hp
  | cons q rest ih =>
    intro p hp hnd
    rw [List.map_cons, List.map_cons]
    rw [List.map_cons, List.nodup_cons] at hnd
    rcases List.mem_cons.mp hp with rfl | hp'
    · exact rowGet_head _ _ _ _
    · have hfq : p.1 ≠ q.1 := by
        intro h
        exact hnd.1 (h ▸ List.mem_map.mpr ⟨p, hp', rfl⟩)
      rw [rowGet_tail _ _ hfq, ih p hp' hnd.2]

theorem find?_enum_unique (dp : List String) (pred : Nat → Bool) (t : Nat)
    (ht : t < dp.length) (hp : pred t = true)
    (huniq : ∀ t', t' < dp.length → pred t' = true → t' = t) :
    dp.enum.find? (fun q => pred q.1) = some (t, dp.get ⟨t, ht⟩) := by
  apply find?_of_unique
  · refine List.mk_mem_enum_iff_getElem?.mpr ?_
    rw [List.getElem?_eq_getElem ht]
    rfl
  · exact hp
  · intro b hb hpb
    have hmem := List.mem_enum_iff_get?.mp hb
    obtain ⟨hlt, hg⟩ := List.get?_eq_some.mp hmem
    have hbt : b.1 = t := huniq b.1 hlt hpb
    cases b with
    | mk b1 b2 =>
      simp only at hbt hg
      subst hbt
      rw [show dp.get ⟨b1, ht⟩ = b2 from by rw [← hg]]

theorem indexOf_get_self {α : Type} [DecidableEq α] {l : List α}
    (h : l.Nodup) {t : Nat} (ht : t < l.length) :
    l.indexOf (l.get ⟨t, ht⟩) = t := by
  have hmem : l.get ⟨t, ht⟩ ∈ l := l.get_mem _ _
  have hlt := List.indexOf_lt_length.mpr hmem
  have hg := List.indexOf_get hlt
  have hinj := h.get_inj_iff.mp hg
  simpa using hinj

theorem domainOf_eq {cp : CatProblem} (hnd : (cp.cats.map Prod.fst).Nodup)
    {f : String} {d : List String} (hf : (f, d) ∈ cp.cats) :
    domainOf cp f = d := by
  unfold domainOf
  rw [find?_of_unique (fun p => decide (p.1 = f)) cp.cats (f, d) hf
    (decide_eq_true rfl) ?_]
  · rfl
  · intro q hq hpq
    exact nodup_fst_eq cp.cats hnd q hq (f, d) hf (of_decide_eq_true hpq)

/-- The index a row entry resolves to in its category's domain (what
`get_info` with the category hint returns for that entry). -/
def resolvedIdx (cp : CatProblem) (row : List (Option String))
    (f : String) : Nat :=
  (domainOf cp f).indexOf ((rowGet cp.categories row f).getD "")

theorem soln_rows_eq (cp : CatProblem) (m : Model PVar)
    {c1 : String} {d1 : List String} {rest : List (String × List String)}
    (hcats : cp.cats = (c1, d1) :: rest) :
    soln_rows cp m = d1.enum.map (fun q =>
      some q.2 :: rest.map (fun p =>
        ((p.2.enum).find? (fun q2 =>
          isTrueV m (vgV cp.categories c1 p.1 q.1 q2.1))).map
          (fun q2 => q2.2))) := by
  unfold soln_rows
  rw [hcats]

theorem soln_rows_length (cp : CatProblem) (m : Model PVar)
    {c1 : String} {d1 : List String} {rest : List (String × List String)}
    (hcats : cp.cats = (c1, d1) :: rest) :
    (soln_rows cp m).length = d1.length := by
  rw [soln_rows_eq cp m hcats, List.length_map, List.enum_length]

theorem soln_rows_getD (cp : CatProblem) (m : Model PVar)
    {c1 : String} {d1 : List String} {rest : List (String × List String)}
    (hcats : cp.cats = (c1, d1) :: rest) {r : Nat} (hr : r < d1.length) :
    (soln_rows cp m).getD r []
      = some (d1.get ⟨r, hr⟩) :: rest.map (fun p =>
          ((p.2.enum).find? (fun q2 =>
            isTrueV m (vgV cp.categories c1 p.1 r q2.1))).map
            (fun q2 => q2.2)) := by
  rw [soln_rows_eq cp m hcats, List.getD_eq_getElem?_getD, List.getElem?_map]
  have henum : d1.enum[r]? = some (r, d1.get ⟨r, hr⟩) := by
    rw [List.getElem?_enum, List.getElem?_eq_getElem hr]
    rfl
  rw [henum]
  rfl

theorem soln_rows_mem_length (cp : CatProblem) (m : Model PVar)
    {c1 : String} {d1 : List String} {rest : List (String × List String)}
    (hcats : cp.cats = (c1, d1) :: rest) :
    ∀ row ∈ soln_rows cp m, row.length = 1 + rest.length := by
  intro row hrow
  rw [soln_rows_eq cp m hcats] at hrow
  obtain ⟨q, _, rfl⟩ := List.mem_map.mp hrow
  rw [List.length_cons, List.length_map]
  omega

theorem soln_rows_index (cp : CatProblem) (m : Model PVar)
    {c1 : String} {d1 : List String} {rest : List (String × List String)}
    (hcats : cp.cats = (c1, d1) :: rest) :
    ∀ row ∈ soln_rows cp m,
    ∃ r, r < d1.length ∧ (soln_rows cp m).getD r [] = row := by
  intro row hrow
  rw [soln_rows_eq cp m hcats] at hrow
  obtain ⟨q, hq, rfl⟩ := List.mem_map.mp hrow
  have hg := List.mk_mem_enum_iff_getElem?.mp
    (show (q.1, q.2) ∈ d1.enum from hq)
  have hr : q.1 < d1.length := by
    by_contra hcon
    rw [List.getElem?_eq_none (by omega)] at hg
    exact Option.noConfusion hg
  refine ⟨q.1, hr, ?_⟩
  rw [soln_rows_getD cp m hcats hr]
  have hval : d1.get ⟨q.1, hr⟩ = q.2 := by
    rw [List.getElem?_eq_getElem hr] at hg
    exact Option.some.inj hg
  rw [hval]

theorem soln_rows_getD_mem (cp : CatProblem) (m : Model PVar)
    {c1 : String} {d1 : List String} {rest : List (String × List String)}
    (hcats : cp.cats = (c1, d1) :: rest) {r : Nat} (hr : r < d1.length) :
    (soln_rows cp m).getD r [] ∈ soln_rows cp m := by
  have hlt : r < (soln_rows cp m).length := by
    rw [soln_rows_length cp m hcats]
    exact hr
  rw [List.getD_eq_getElem?_getD, List.getElem?_eq_getElem hlt]
  exact List.getElem_mem hlt

/-- What a row of `CatSoln.rows` contains at a category key: the unique
domain value whose cell with the anchor row is `True` (the anchor category
maps to the row's own value), together with its resolution index. -/
theorem soln_row_facts (cp : CatProblem) (m : Model PVar)
    (hsat : SatisfiesCP cp m)
    (hnd : (cp.cats.map Prod.fst).Nodup)
    (hdomnd : ∀ p ∈ cp.cats, p.2.Nodup)
    (hlen : ∀ p ∈ cp.cats, p.2.length = cp.numItems)
    {c1 : String} {d1 : List String} {rest : List (String × List String)}
    (hcats : cp.cats = (c1, d1) :: rest)
    {r : Nat} (hr : r < d1.length)
    {f : String} {df : List String} (hf : (f, df) ∈ cp.cats) :
    ∃ t, t < df.length
      ∧ rowGet cp.categories ((soln_rows cp m).getD r []) f = df.get? t
      ∧ resolvedIdx cp ((soln_rows cp m).getD r []) f = t
      ∧ (f = c1 → t = r)
      ∧ (f ≠ c1 → isTrueV m (vgV cp.categories c1 f r t) = true
          ∧ ∀ t', t' < df.length →
              isTrueV m (vgV cp.categories c1 f r t') = true → t' = t) := by
  have hcatn : cp.categories = c1 :: rest.map Prod.fst := by
    unfold CatProblem.categories
    rw [hcats, List.map_cons]
  have hrow := soln_rows_getD cp m hcats hr
  have hdomf : domainOf cp f = df := domainOf_eq hnd hf
  have hndf : df.Nodup := hdomnd _ hf
  by_cases hfc1 : f = c1
  · subst hfc1
    have hfd : ((f, df) : String × List String) = (f, d1) :=
      nodup_fst_eq cp.cats hnd (f, df) hf (f, d1)
        (by rw [hcats]; exact List.mem_cons_self _ _) rfl
    have hdfd1 : df = d1 := congrArg Prod.snd hfd
    have hget : rowGet cp.categories ((soln_rows cp m).getD r []) f
        = some (d1.get ⟨r, hr⟩) := by
      rw [hrow, hcatn, rowGet_head]
    refine ⟨r, by rw [hdfd1]; exact hr, ?_, ?_, fun _ => rfl,
      fun hne => absurd rfl hne⟩
    · rw [hget, hdfd1, List.get?_eq_get hr]
    · unfold resolvedIdx
      rw [hdomf, hget, hdfd1]
      exact indexOf_get_self (hdfd1 ▸ hndf) hr
  · have hfrest : (f, df) ∈ rest := by
      rw [hcats] at hf
      rcases List.mem_cons.mp hf with he | h
      · exact absurd (congrArg Prod.fst he) hfc1
      · exact h
    have hndrest : (rest.map Prod.fst).Nodup := by
      have := hnd
      rw [hcats, List.map_cons, List.nodup_cons] at this
      exact this.2
    have hfm : f ∈ cp.categories := by
      rw [hcatn]
      exact List.mem_cons_of_mem _ (List.mem_map.mpr ⟨(f, df), hfrest, rfl⟩)
    have hc1m : c1 ∈ cp.categories := by
      rw [hcatn]
      exact List.mem_cons_self _ _
    have hc1f : c1 ≠ f := fun h => hfc1 h.symm
    have hn : cp.numItems = d1.length := by
      unfold CatProblem.numItems
      rw [hcats]
    have hrn : r < cp.numItems := by omega
    have hone := cp_row_one cp m hsat hc1m hfm hc1f hrn
    obtain ⟨t, htn, htp⟩ := countP_one_exists hone
    have hdfn : df.length = cp.numItems := hlen _ hf
    have htdf : t < df.length := by omega
    have huniq : ∀ t', t' < df.length →
        isTrueV m (vgV cp.categories c1 f r t') = true → t' = t := by
      intro t' ht' hp'
      exact countP_one_unique hone (by omega) htn hp' htp
    have hget : rowGet cp.categories ((soln_rows cp m).getD r []) f
        = some (df.get ⟨t, htdf⟩) := by
      rw [hrow, hcatn, rowGet_tail _ _ hfc1,
        rowGet_map rest (f, df) hfrest hndrest, ← hcatn]
      show ((df.enum).find? (fun q2 =>
          isTrueV m (vgV cp.categories c1 f r q2.1))).map
          (fun q2 => q2.2) = some (df.get ⟨t, htdf⟩)
      rw [find?_enum_unique df
        (fun t' => isTrueV m (vgV cp.categories c1 f r t')) t htdf htp huniq]
      rfl
    refine ⟨t, htdf, ?_, ?_, fun he => absurd he hfc1, fun _ => ⟨htp, huniq⟩⟩
    · rw [hget, List.get?_eq_get htdf]
    · unfold resolvedIdx
      rw [hdomf, hget]
      exact indexOf_get_self hndf htdf

theorem mem_categories_pair {cp : CatProblem} {f : String}
    (hf : f ∈ cp.categories) : ∃ df, (f, df) ∈ cp.cats := by
  unfold CatProblem.categories at hf
  obtain ⟨p, hp, hfe⟩ := List.mem_map.mp hf
  exact ⟨p.2, hfe ▸ (show (p.1, p.2) ∈ cp.cats from hp)⟩

/-- Rebuilding one enumerated row never fails, and its effect is one
`True` write per category pair at the row's resolved indices. -/
theorem setRowCells_ok (cp : CatProblem) (m : Model PVar)
    (hsat : SatisfiesCP cp m)
    (hnd : (cp.cats.map Prod.fst).Nodup)
    (hdomnd : ∀ p ∈ cp.cats, p.2.Nodup)
    (hlen : ∀ p ∈ cp.cats, p.2.length = cp.numItems)
    (hcolon : ∀ p ∈ cp.cats, ':' ∉ p.1.data ∧ ∀ w ∈ p.2, ':' ∉ w.data)
    {c1 : String} {d1 : List String} {rest : List (String × List String)}
    (hcats : cp.cats = (c1, d1) :: rest)
    {r : Nat} (hr : r < d1.length) (g : GridL) :
    setRowCells cp.categories (buildLookup cp.cats)
        ((soln_rows cp m).getD r []) g
      = .ok ((combos2 cp.categories).foldl (fun g p =>
          gridWrite g p.1 p.2
            (resolvedIdx cp ((soln_rows cp m).getD r []) p.1)
            (resolvedIdx cp ((soln_rows cp m).getD r []) p.2)
            (some true)) g) := by
  unfold setRowCells
  apply foldlM_ok
  intro b p hp
  obtain ⟨h1m, h2m, _⟩ := combos2_mem_spec cp.categories p hp
  obtain ⟨df1, hf1⟩ := mem_categories_pair h1m
  obtain ⟨df2, hf2⟩ := mem_categories_pair h2m
  obtain ⟨t1, ht1, hg1, hi1, _, _⟩ :=
    soln_row_facts cp m hsat hnd hdomnd hlen hcats hr hf1
  obtain ⟨t2, ht2, hg2, hi2, _, _⟩ :=
    soln_row_facts cp m hsat hnd hdomnd hlen hcats hr hf2
  have hv1 : rowGet cp.categories ((soln_rows cp m).getD r []) p.1
      = some (df1.get ⟨t1, ht1⟩) := by
    rw [hg1, List.get?_eq_get ht1]
  have hv2 : rowGet cp.categories ((soln_rows cp m).getD r []) p.2
      = some (df2.get ⟨t2, ht2⟩) := by
    rw [hg2, List.get?_eq_get ht2]
  have hre1 : get_info_str (buildLookup cp.cats) (df1.get ⟨t1, ht1⟩)
      (some p.1)
      = .ok ⟨p.1, df1.get ⟨t1, ht1⟩, df1.indexOf (df1.get ⟨t1, ht1⟩)⟩ :=
    buildLookup_resolves cp.cats p.1 _ df1 hnd hdomnd hcolon hf1
      (df1.get_mem _ _)
  have hre2 : get_info_str (buildLookup cp.cats) (df2.get ⟨t2, ht2⟩)
      (some p.2)
      = .ok ⟨p.2, df2.get ⟨t2, ht2⟩, df2.indexOf (df2.get ⟨t2, ht2⟩)⟩ :=
    buildLookup_resolves cp.cats p.2 _ df2 hnd hdomnd hcolon hf2
      (df2.get_mem _ _)
  have hx1 : df1.indexOf (df1.get ⟨t1, ht1⟩)
      = resolvedIdx cp ((soln_rows cp m).getD r []) p.1 := by
    rw [indexOf_get_self (hdomnd _ hf1) ht1, hi1]
  have hx2 : df2.indexOf (df2.get ⟨t2, ht2⟩)
      = resolvedIdx cp ((soln_rows cp m).getD r []) p.2 := by
    rw [indexOf_get_self (hdomnd _ hf2) ht2, hi2]
  simp only [hv1, hv2, hre1, hre2]
  show Except.ok (gridWrite b p.1 p.2 (df1.indexOf (df1.get ⟨t1, ht1⟩))
      (df2.indexOf (df2.get ⟨t2, ht2⟩)) (some true)) = _
  rw [hx1, hx2]

/-- No literal repeats down a column of the enumerated rows, so the
mangling pass of `CatSoln.grid` is the identity on them. -/
theorem soln_rows_cols_distinct (cp : CatProblem) (m : Model PVar)
    (hsat : SatisfiesCP cp m)
    (hnd : (cp.cats.map Prod.fst).Nodup)
    (hdomnd : ∀ p ∈ cp.cats, p.2.Nodup)
    (hlen : ∀ p ∈ cp.cats, p.2.length = cp.numItems)
    {c1 : String} {d1 : List String} {rest : List (String × List String)}
    (hcats : cp.cats = (c1, d1) :: rest) (ci : Nat) :
    List.Pairwise (fun a b => ∀ s, a = some s → b ≠ some s)
      ((soln_rows cp m).map (fun r => (r.get? ci).getD none)) := by
  have hcatn : cp.categories = c1 :: rest.map Prod.fst := by
    unfold CatProblem.categories
    rw [hcats, List.map_cons]
  have hndcat : cp.categories.Nodup := hnd
  have hn : cp.numItems = d1.length := by
    unfold CatProblem.numItems
    rw [hcats]
  rw [List.pairwise_iff_getElem]
  intro a b ha hb hab
  have ha2 : a < d1.length := by
    have h := ha
    rw [List.length_map, soln_rows_length cp m hcats] at h
    exact h
  have hb2 : b < d1.length := by
    have h := hb
    rw [List.length_map, soln_rows_length cp m hcats] at h
    exact h
  have hga : ((soln_rows cp m).map (fun r => (r.get? ci).getD none))[a]
      = (((soln_rows cp m).getD a []).get? ci).getD none := by
    rw [List.getElem_map]
    congr 1
    have hlt : a < (soln_rows cp m).length := by
      rw [soln_rows_length cp m hcats]
      exact ha2
    rw [List.getD_eq_getElem?_getD, List.getElem?_eq_getElem hlt]
    rfl
  have hgb : ((soln_rows cp m).map (fun r => (r.get? ci).getD none))[b]
      = (((soln_rows cp m).getD b []).get? ci).getD none := by
    rw [List.getElem_map]
    congr 1
    have hlt : b < (soln_rows cp m).length := by
      rw [soln_rows_length cp m hcats]
      exact hb2
    rw [List.getD_eq_getElem?_getD, List.getElem?_eq_getElem hlt]
    rfl
  rw [hga, hgb]
  by_cases hci : ci < cp.categories.length
  · set f := cp.categories.get ⟨ci, hci⟩ with hfdef
    have hidx : cp.categories.indexOf f = ci := indexOf_get_self hndcat hci
    have hfm : f ∈ cp.categories := cp.categories.get_mem _ _
    obtain ⟨df, hf⟩ := mem_categories_pair hfm
    have hrga : (((soln_rows cp m).getD a []).get? ci).getD none
        = rowGet cp.categories ((soln_rows cp m).getD a []) f := by
      unfold rowGet
      rw [hidx]
    have hrgb : (((soln_rows cp m).getD b []).get? ci).getD none
        = rowGet cp.categories ((soln_rows cp m).getD b []) f := by
      unfold rowGet
      rw [hidx]
    rw [hrga, hrgb]
    obtain ⟨ta, hta, hgta, _, hc1a, hxa⟩ :=
      soln_row_facts cp m hsat hnd hdomnd hlen hcats ha2 hf
    obtain ⟨tb, htb, hgtb, _, hc1b, hxb⟩ :=
      soln_row_facts cp m hsat hnd hdomnd hlen hcats hb2 hf
    intro s hsa hsb
    rw [hgta] at hsa
    rw [hgtb] at hsb
    obtain ⟨hta', hva⟩ := List.get?_eq_some.mp hsa
    obtain ⟨htb', hvb⟩ := List.get?_eq_some.mp hsb
    have hndf : df.Nodup := hdomnd _ hf
    have htab : ta = tb := by
      have := hndf.get_inj_iff.mp (hva.trans hvb.symm)
      simpa using this
    by_cases hfc1 : f = c1
    · have h1 := hc1a hfc1
      have h2 := hc1b hfc1
      omega
    · obtain ⟨hpa, _⟩ := hxa hfc1
      obtain ⟨hpb, _⟩ := hxb hfc1
      have hc1m : c1 ∈ cp.categories := by
        rw [hcatn]
        exact List.mem_cons_self _ _
      have hc1f : c1 ≠ f := fun h => hfc1 h.symm
      have hdfn : df.length = cp.numItems := hlen _ hf
      have hone := cp_col_one cp m hsat hc1m hfm hc1f
        (show ta < cp.numItems by omega)
      have hpb' : isTrueV m (vgV cp.categories c1 f b ta) = true := by
        rw [htab]
        exact hpb
      have := countP_one_unique hone (show a < cp.numItems by omega)
        (show b < cp.numItems by omega) hpa hpb'
      omega
  · have hlena : ((soln_rows cp m).getD a []).length = cp.categories.length := by
      rw [soln_rows_mem_length cp m hcats _
          (soln_rows_getD_mem cp m hcats ha2),
        hcatn, List.length_cons, List.length_map]
      omega
    have hnone : (((soln_rows cp m).getD a []).get? ci).getD none = none := by
      rw [List.get?_eq_getElem?, List.getElem?_eq_none (by omega)]
      rfl
    rw [hnone]
    intro s hs
    exact Option.noConfusion hs

theorem canonKey_base (cp : CatProblem) (X Y : String) (p q : Nat) :
    canonKey (⟨cp.cats, fun _ _ _ _ => some false⟩ : GridL) X Y p q
      = if cp.categories.indexOf X < cp.categories.indexOf Y
        then (X, Y, p, q) else (Y, X, q, p) := rfl

/-- Every `True` write of the rebuild comes from some row pairing. -/
theorem soln_writes_forward (cp : CatProblem) (m : Model PVar)
    (hsat : SatisfiesCP cp m)
    (hnd : (cp.cats.map Prod.fst).Nodup)
    (hdomnd : ∀ p ∈ cp.cats, p.2.Nodup)
    (hlen : ∀ p ∈ cp.cats, p.2.length = cp.numItems)
    {c1 : String} {d1 : List String} {rest : List (String × List String)}
    (hcats : cp.cats = (c1, d1) :: rest)
    (A B : String) (hA : A ∈ cp.categories) (hB : B ∈ cp.categories)
    (hAB : A ≠ B) (i j : Nat)
    (hex : ∃ w ∈ (soln_rows cp m).bind (fun row =>
        (combos2 cp.categories).map (fun p =>
          (p.1, p.2, resolvedIdx cp row p.1, resolvedIdx cp row p.2))),
      canonKey (⟨cp.cats, fun _ _ _ _ => some false⟩ : GridL)
          w.1 w.2.1 w.2.2.1 w.2.2.2
        = canonKey ⟨cp.cats, fun _ _ _ _ => some false⟩ A B i j) :
    ∃ r, r < cp.numItems ∧
      rowGet cp.categories ((soln_rows cp m).getD r []) A
        = (domainOf cp A).get? i ∧
      rowGet cp.categories ((soln_rows cp m).getD r []) B
        = (domainOf cp B).get? j := by
  have hn : cp.numItems = d1.length := by
    unfold CatProblem.numItems
    rw [hcats]
  have hndcat : cp.categories.Nodup := hnd
  obtain ⟨w, hw, hck⟩ := hex
  obtain ⟨row, hrowm, hwm⟩ := List.mem_bind.mp hw
  obtain ⟨p, hp, rfl⟩ := List.mem_map.mp hwm
  obtain ⟨r, hr, hgd⟩ := soln_rows_index cp m hcats row hrowm
  obtain ⟨h1m, h2m, hlt'⟩ := combos2_mem_spec cp.categories p hp
  have hplt := hlt' hndcat
  dsimp only at hck
  rw [canonKey_base, canonKey_base, if_pos hplt] at hck
  have hABne : cp.categories.indexOf A ≠ cp.categories.indexOf B :=
    fun h => hAB ((List.indexOf_inj hA hB).mp h)
  obtain ⟨dA, hfA⟩ := mem_categories_pair hA
  obtain ⟨dB, hfB⟩ := mem_categories_pair hB
  obtain ⟨tA, htA, hgA, hiA, _, _⟩ :=
    soln_row_facts cp m hsat hnd hdomnd hlen hcats hr hfA
  obtain ⟨tB, htB, hgB, hiB, _, _⟩ :=
    soln_row_facts cp m hsat hnd hdomnd hlen hcats hr hfB
  rw [hgd] at hgA hiA hgB hiB
  rcases Nat.lt_trichotomy (cp.categories.indexOf A)
      (cp.categories.indexOf B) with hlt | heq | hgt
  · rw [if_pos hlt] at hck
    simp only [Prod.mk.injEq] at hck
    obtain ⟨he1, he2, he3, he4⟩ := hck
    rw [he1] at he3
    rw [he2] at he4
    rw [hiA] at he3
    rw [hiB] at he4
    refine ⟨r, by omega, ?_, ?_⟩
    · rw [hgd, domainOf_eq hnd hfA, hgA, he3]
    · rw [hgd, domainOf_eq hnd hfB, hgB, he4]
  · exact absurd heq hABne
  · rw [if_neg (by omega)] at hck
    simp only [Prod.mk.injEq] at hck
    obtain ⟨he1, he2, he3, he4⟩ := hck
    rw [he1] at he3
    rw [he2] at he4
    rw [hiB] at he3
    rw [hiA] at he4
    refine ⟨r, by omega, ?_, ?_⟩
    · rw [hgd, domainOf_eq hnd hfA, hgA, he4]
    · rw [hgd, domainOf_eq hnd hfB, hgB, he3]

/-- Every row pairing produces a `True` write of the rebuild. -/
theorem soln_writes_backward (cp : CatProblem) (m : Model PVar)
    (hsat : SatisfiesCP cp m)
    (hnd : (cp.cats.map Prod.fst).Nodup)
    (hdomnd : ∀ p ∈ cp.cats, p.2.Nodup)
    (hlen : ∀ p ∈ cp.cats, p.2.length = cp.numItems)
    {c1 : String} {d1 : List String} {rest : List (String × List String)}
    (hcats : cp.cats = (c1, d1) :: rest)
    (A B : String) (hA : A ∈ cp.categories) (hB : B ∈ cp.categories)
    (hAB : A ≠ B) (i j : Nat) (hi : i < cp.numItems) (hj : j < cp.numItems)
    (hr2 : ∃ r, r < cp.numItems ∧
      rowGet cp.categories ((soln_rows cp m).getD r []) A
        = (domainOf cp A).get? i ∧
      rowGet cp.categories ((soln_rows cp m).getD r []) B
        = (domainOf cp B).get? j) :
    ∃ w ∈ (soln_rows cp m).bind (fun row =>
        (combos2 cp.categories).map (fun p =>
          (p.1, p.2, resolvedIdx cp row p.1, resolvedIdx cp row p.2))),
      canonKey (⟨cp.cats, fun _ _ _ _ => some false⟩ : GridL)
          w.1 w.2.1 w.2.2.1 w.2.2.2
        = canonKey ⟨cp.cats, fun _ _ _ _ => some false⟩ A B i j := by
  have hn : cp.numItems = d1.length := by
    unfold CatProblem.numItems
    rw [hcats]
  have hndcat : cp.categories.Nodup := hnd
  obtain ⟨r, hrn, hgA, hgB⟩ := hr2
  have hr : r < d1.length := by omega
  obtain ⟨dA, hfA⟩ := mem_categories_pair hA
  obtain ⟨dB, hfB⟩ := mem_categories_pair hB
  obtain ⟨tA, htA, hgA', hiA, _, _⟩ :=
    soln_row_facts cp m hsat hnd hdomnd hlen hcats hr hfA
  obtain ⟨tB, htB, hgB', hiB, _, _⟩ :=
    soln_row_facts cp m hsat hnd hdomnd hlen hcats hr hfB
  rw [domainOf_eq hnd hfA] at hgA
  rw [domainOf_eq hnd hfB] at hgB
  have hiA' : i < dA.length := by
    rw [hlen _ hfA]
    omega
  have hjB' : j < dB.length := by
    rw [hlen _ hfB]
    omega
  have heqA : dA.get? tA = dA.get? i := hgA'.symm.trans hgA
  have heqB : dB.get? tB = dB.get? j := hgB'.symm.trans hgB
  rw [List.get?_eq_get htA, List.get?_eq_get hiA'] at heqA
  rw [List.get?_eq_get htB, List.get?_eq_get hjB'] at heqB
  have htAi : tA = i := by
    have := (hdomnd _ hfA).get_inj_iff.mp (Option.some.inj heqA)
    simpa using this
  have htBj : tB = j := by
    have := (hdomnd _ hfB).get_inj_iff.mp (Option.some.inj heqB)
    simpa using this
  have hABne : cp.categories.indexOf A ≠ cp.categories.indexOf B :=
    fun h => hAB ((List.indexOf_inj hA hB).mp h)
  have hrowm := soln_rows_getD_mem cp m hcats hr
  rcases Nat.lt_trichotomy (cp.categories.indexOf A)
      (cp.categories.indexOf B) with hlt | heq | hgt
  · refine ⟨(A, B, resolvedIdx cp ((soln_rows cp m).getD r []) A,
        resolvedIdx cp ((soln_rows cp m).getD r []) B), ?_, ?_⟩
    · refine List.mem_bind.mpr ⟨(soln_rows cp m).getD r [], hrowm, ?_⟩
      exact List.mem_map.mpr ⟨(A, B), mem_combos2 _ A B hA hB hlt, rfl⟩
    · dsimp only
      rw [canonKey_base, canonKey_base, if_pos hlt, if_pos hlt,
        hiA, hiB, htAi, htBj]
  · exact absurd heq hABne
  · refine ⟨(B, A, resolvedIdx cp ((soln_rows cp m).getD r []) B,
        resolvedIdx cp ((soln_rows cp m).getD r []) A), ?_, ?_⟩
    · refine List.mem_bind.mpr ⟨(soln_rows cp m).getD r [], hrowm, ?_⟩
      exact List.mem_map.mpr ⟨(B, A), mem_combos2 _ B A hB hA hgt, rfl⟩
    · dsimp only
      rw [canonKey_base, canonKey_base, if_pos hgt,
        if_neg (by omega : ¬ cp.categories.indexOf A
          < cp.categories.indexOf B),
        hiA, hiB, htAi, htBj]

/-- Claim C8: for an enumerated solution of a categories-only problem whose
category map is well formed (distinct category names, distinct colon-free
literals, equal domain sizes), rebuilding the display grid from the
solution's rows succeeds, and a cell of any pair matrix is `True` exactly
when some row pairs the corresponding two values: every pairing listed in
a row appears as a `True` cell, and no other cell is `True`. -/
theorem soln_grid_matches_rows (cp : CatProblem) (check : Oracle PVar)
    (limit : Nat) (m : Model PVar) (hs : Sound check)
    (hm : m ∈ (all_solns check (catProblemL cp) limit).1)
    (hnd : (cp.cats.map Prod.fst).Nodup)
    (hdomnd : ∀ p ∈ cp.cats, p.2.Nodup)
    (hlen : ∀ p ∈ cp.cats, p.2.length = cp.numItems)
    (hcolon : ∀ p ∈ cp.cats, ':' ∉ p.1.data ∧ ∀ w ∈ p.2, ':' ∉ w.data)
    (hne : cp.cats ≠ []) (_hxcats : cp.xcats = [])
    (_hpos : 0 < cp.numItems) :
    ∃ G, soln_grid cp (dedupRows (soln_rows cp m)) = .ok G
      ∧ ∀ A B, A ∈ cp.categories → B ∈ cp.categories → A ≠ B →
        ∀ i j, i < cp.numItems → j < cp.numItems →
        (gridRead G A B i j = some true ↔
          ∃ r, r < cp.numItems ∧
            rowGet cp.categories ((soln_rows cp m).getD r []) A
              = (domainOf cp A).get? i ∧
            rowGet cp.categories ((soln_rows cp m).getD r []) B
              = (domainOf cp B).get? j) := by
  obtain ⟨c1, d1, rest, hcats⟩ : ∃ c1 d1 rest, cp.cats = (c1, d1) :: rest := by
    cases hc : cp.cats with
    | nil => exact absurd hc hne
    | cons p rest2 => exact ⟨p.1, p.2, rest2, by rw [Prod.mk.eta]⟩
  have hsat := enumerated_satisfies cp hs hm
  have hL := soln_rows_mem_length cp m hcats
  have hnoop : dedupRows (soln_rows cp m) = soln_rows cp m := by
    apply dedupRows_noop
    · intro row hrow
      rw [hL row hrow]
      cases hrs : soln_rows cp m with
      | nil =>
        rw [hrs] at hrow
        exact absurd hrow (List.not_mem_nil row)
      | cons r0 rs =>
        have hr0 : r0 ∈ soln_rows cp m := by
          rw [hrs]
          exact List.mem_cons_self _ _
        show 1 + rest.length = r0.length
        rw [hL r0 hr0]
    · exact fun ci =>
        soln_rows_cols_distinct cp m hsat hnd hdomnd hlen hcats ci
  have hfold : soln_grid cp (soln_rows cp m)
      = .ok ((soln_rows cp m).foldl (fun g row =>
          (combos2 cp.categories).foldl (fun g p =>
            gridWrite g p.1 p.2 (resolvedIdx cp row p.1)
              (resolvedIdx cp row p.2) (some true)) g)
          ⟨cp.cats, fun _ _ _ _ => some false⟩) := by
    unfold soln_grid
    apply foldlM_ok
    intro b row hrow
    obtain ⟨r, hr, hgd⟩ := soln_rows_index cp m hcats row hrow
    rw [← hgd]
    exact setRowCells_ok cp m hsat hnd hdomnd hlen hcolon hcats hr b
  refine ⟨_, by rw [hnoop]; exact hfold, ?_⟩
  intro A B hA hB hAB i j hi hj
  have hflat : (soln_rows cp m).foldl (fun g row =>
        (combos2 cp.categories).foldl (fun g p =>
          gridWrite g p.1 p.2 (resolvedIdx cp row p.1)
            (resolvedIdx cp row p.2) (some true)) g)
        (⟨cp.cats, fun _ _ _ _ => some false⟩ : GridL)
      = ((soln_rows cp m).bind (fun row => (combos2 cp.categories).map
          (fun p => (p.1, p.2, resolvedIdx cp row p.1,
            resolvedIdx cp row p.2)))).foldl
          (fun g w => gridWrite g w.1 w.2.1 w.2.2.1 w.2.2.2 (some true))
          ⟨cp.cats, fun _ _ _ _ => some false⟩ := by
    rw [foldl_flatten]
    refine congrArg (fun F => List.foldl F
      (⟨cp.cats, fun _ _ _ _ => some false⟩ : GridL) (soln_rows cp m)) ?_
    funext c row
    rw [List.foldl_map]
  rw [hflat, foldl_writeTrue_read]
  have hbase : gridRead (⟨cp.cats, fun _ _ _ _ => some false⟩ : GridL)
      A B i j = some false := by
    unfold gridRead
    by_cases h : (⟨cp.cats, fun _ _ _ _ => some false⟩ : GridL).catIdx A
        < (⟨cp.cats, fun _ _ _ _ => some false⟩ : GridL).catIdx B
    · rw [if_pos h]
    · rw [if_neg h]
  by_cases hex : ∃ w ∈ (soln_rows cp m).bind (fun row =>
      (combos2 cp.categories).map (fun p =>
        (p.1, p.2, resolvedIdx cp row p.1, resolvedIdx cp row p.2))),
    canonKey (⟨cp.cats, fun _ _ _ _ => some false⟩ : GridL)
        w.1 w.2.1 w.2.2.1 w.2.2.2
      = canonKey ⟨cp.cats, fun _ _ _ _ => some false⟩ A B i j
  · rw [if_pos hex]
    exact iff_of_true rfl
      (soln_writes_forward cp m hsat hnd hdomnd hlen hcats A B hA hB hAB
        i j hex)
  · rw [if_neg hex, hbase]
    refine iff_of_false (by simp) (fun hr2 => hex ?_)
    exact soln_writes_backward cp m hsat hnd hdomnd hlen hcats A B hA hB
      hAB i j hi hj hr2

theorem soln_grid_matches_rows_witness :
    ∃ G, soln_grid cpW (dedupRows (soln_rows cpW mW)) = .ok G
      ∧ gridRead G "person" "drink" 0 0 = some true := by
  obtain ⟨G, hG, hiff⟩ := soln_grid_matches_rows cpW checkW 1 mW
    checkW_sound mW_mem (by decide) (by decide) (by decide) (by decide)
    (by decide) rfl (by decide)
  refine ⟨G, hG, ?_⟩
  rw [hiff "person" "drink" (by decide) (by decide) (by decide) 0 0
    (by decide) (by decide)]
  exact ⟨0, by decide, by decide, by decide⟩

end Puztool
